import Mathlib

/-!
# Verification of the `mark` line-editing engine (`src/readline.ts`)

A shallow embedding of the TTY line-editing core of the repository:
JavaScript strings are modelled as lists of UTF-16 code units
(`List Nat`, each unit below `0x10000`), the `TTYInterface` class state as a
`Session` structure, and each method as a pure state-transformer translated
directly from the TypeScript source.  The few helpers the source pulls in
from `internal/readline/utils` (`getStringWidth`, `isFullWidthCodePoint`,
`stripVTControlCharacters`) are not part of the repository; they are
modelled from the specification and marked as such in their doc comments.

Source conventions followed here:
* the class body defines methods `refreshLine`, `insertString`, … while the
  call sites use `this._refreshLine`, `this._insertString`, …; the
  underscore-prefixed names are read as references to the same methods
  (the source is a port of Node's readline in which the definitions carry
  the underscore);
* `this.historySize`, `this.removeHistoryDuplicates`, `this.crlfDelay` and
  `this.columns` are configuration values of the interface which the draft
  never declares; they are modelled as an explicit `Config` record, with
  the defaults `kHistorySize` and `kMincrlfDelay` that the source defines;
* `this.output.write`-level escape sequences (cursor movement, clears) are
  not observable in this model; what is recorded is every payload passed
  to `writeToOutput`, every `'line'` event, and a counter of `refreshLine`
  invocations.
-/

/-- UTF-16 code-unit strings: a JavaScript string is its list of code units. -/
abbrev JStr := List Nat

/-- Code-unit codes of a Lean string literal (all inputs used here are ASCII,
one code unit per character). -/
def strCodes (s : String) : JStr := s.data.map Char.toNat

/-- `kUTF16SurrogateThreshold` from `internal/readline/utils`: `0x10000`,
the first code point that needs a surrogate pair. -/
def kUTF16SurrogateThreshold : Nat := 0x10000

/-- High-surrogate code unit (`0xD800..0xDBFF`). -/
def isHighSurrogate (c : Nat) : Bool := decide (0xD800 ≤ c ∧ c ≤ 0xDBFF)

/-- Low-surrogate code unit (`0xDC00..0xDFFF`). -/
def isLowSurrogate (c : Nat) : Bool := decide (0xDC00 ≤ c ∧ c ≤ 0xDFFF)

/-- Code point encoded by a surrogate pair. -/
def combineSurrogates (hi lo : Nat) : Nat :=
  0x10000 + (hi - 0xD800) * 0x400 + (lo - 0xDC00)

/-- `String.prototype.codePointAt(i)`: `none` when `i` is out of range,
otherwise the code unit at `i`, combined with the following unit when the
two form a surrogate pair. -/
def codePointAt (s : JStr) (i : Nat) : Option Nat :=
  match s.get? i with
  | none => none
  | some c =>
    if isHighSurrogate c then
      match s.get? (i + 1) with
      | some c2 => if isLowSurrogate c2 then some (combineSurrogates c c2) else some c
      | none => some c
    else some c

/-- `codePointAt` at a possibly negative (JavaScript) index; a negative index
is out of range and yields `undefined`, modelled as `none`. -/
def codePointAtI (s : JStr) (i : Int) : Option Nat :=
  if i < 0 then none else codePointAt s i.toNat

/-- `codePointAt(i) >= kUTF16SurrogateThreshold` with JavaScript comparison
semantics: comparing `undefined` yields `false`. -/
def cpGE (s : JStr) (i : Int) : Bool :=
  match codePointAtI s i with
  | none => false
  | some v => decide (kUTF16SurrogateThreshold ≤ v)

/-- Resolution of a JavaScript `slice` index against a string of length
`len`: negative indices count from the end (clamped at 0), nonnegative ones
are clamped at `len`. -/
def jsIndex (len : Nat) (i : Int) : Nat :=
  if i < 0 then ((len : Int) + i).toNat else min i.toNat len

/-- `String.prototype.slice(a, b)` on code units. -/
def jsSlice (s : JStr) (a b : Int) : JStr :=
  let st := jsIndex s.length a
  let en := jsIndex s.length b
  (s.drop st).take (en - st)

/-- `String.prototype.slice(a)` (one-argument form). -/
def jsSliceFrom (s : JStr) (a : Int) : JStr := jsSlice s a s.length

/-- `charLengthLeft(str, i)` from `src/readline.ts`: the number of UTF-16
units of the character to the left of position `i`. -/
def charLengthLeft (s : JStr) (i : Int) : Nat :=
  if i ≤ 0 then 0
  else if (1 < i ∧ cpGE s (i - 2)) ∨ cpGE s (i - 1) then 2
  else 1

/-- `charLengthAt(str, i)` from `src/readline.ts`: the number of UTF-16
units of the character at position `i`. -/
def charLengthAt (s : JStr) (i : Int) : Nat :=
  if (s.length : Int) ≤ i then 0
  else if (codePointAtI s i).getD 0 ≥ kUTF16SurrogateThreshold then 2
  else 1

/-- JavaScript regular-expression class `\w` on a code unit:
`[A-Za-z0-9_]`. -/
def isWordCu (c : Nat) : Bool :=
  decide ((48 ≤ c ∧ c ≤ 57) ∨ (65 ≤ c ∧ c ≤ 90) ∨ (97 ≤ c ∧ c ≤ 122) ∨ c = 95)

/-- JavaScript regular-expression class `\s` on a code unit (WhiteSpace and
LineTerminator code points). -/
def isSpaceCu (c : Nat) : Bool :=
  decide ((9 ≤ c ∧ c ≤ 13) ∨ c = 0x20 ∨ c = 0xA0 ∨ c = 0x1680 ∨
    (0x2000 ≤ c ∧ c ≤ 0x200A) ∨ c = 0x2028 ∨ c = 0x2029 ∨ c = 0x202F ∨
    c = 0x205F ∨ c = 0x3000 ∨ c = 0xFEFF)

/-- `String.prototype.trim`: strip leading and trailing `\s` units. -/
def jsTrim (s : JStr) : JStr :=
  ((s.dropWhile isSpaceCu).reverse.dropWhile isSpaceCu).reverse

/-- Match length of `/^\s*(?:[^\w\s]+|\w+)?/` (the `wordLeft` /
`deleteWordLeft` pattern, applied to the reversed leading text).  The
classes `\s`, `\w` and `[^\w\s]` are pairwise disjoint, so the regex engine
never backtracks: the match is the maximal run of `\s` followed by the
maximal run of whichever class the next unit belongs to (or nothing when
the whitespace run exhausts the string). -/
def wordLeftMatchLen (s : JStr) : Nat :=
  let ws := s.takeWhile isSpaceCu
  let rest := s.dropWhile isSpaceCu
  ws.length +
    match rest with
    | [] => 0
    | c :: _ =>
      if isWordCu c then (rest.takeWhile isWordCu).length
      else (rest.takeWhile (fun x => !isWordCu x && !isSpaceCu x)).length

/-- Match length of `/^(?:\s+|\W+|\w+)\s*/` (the `deleteWordRight` pattern):
`none` when the regex fails (empty input).  Ordered alternation: a leading
`\s` unit selects `\s+` (after which `\s*` adds nothing); otherwise a
non-`\w` unit selects `\W+`, whose class also swallows any embedded
whitespace, and the following `\s*` adds nothing since the run stops at a
`\w` unit; otherwise `\w+` is followed by a maximal `\s*` run. -/
def wordRightMatchLen (s : JStr) : Option Nat :=
  match s with
  | [] => none
  | c :: _ =>
    if isSpaceCu c then some (s.takeWhile isSpaceCu).length
    else if !isWordCu c then some (s.takeWhile (fun x => !isWordCu x)).length
    else
      let w := (s.takeWhile isWordCu).length
      some (w + ((s.drop w).takeWhile isSpaceCu).length)

/-- Match length of `/^(?:\s+|[^\w\s]+|\w+)\s*/` (the `wordRight` pattern):
`none` when the regex fails (empty input). -/
def wordRightMoveLen (s : JStr) : Option Nat :=
  match s with
  | [] => none
  | c :: _ =>
    if isSpaceCu c then
      let w := (s.takeWhile isSpaceCu).length
      some (w + ((s.drop w).takeWhile isSpaceCu).length)
    else if !isWordCu c then
      let w := (s.takeWhile (fun x => !isWordCu x && !isSpaceCu x)).length
      some (w + ((s.drop w).takeWhile isSpaceCu).length)
    else
      let w := (s.takeWhile isWordCu).length
      some (w + ((s.drop w).takeWhile isSpaceCu).length)

/-! ## Line Buffer

The `line`/`cursor` fragment of the `TTYInterface` state, with the mutating
operations of the source translated as pure state transformers.  The cursor
is an `Int` because the arithmetic in the source is JavaScript number
arithmetic with no lower clamp in `deleteLeft`.  Operations whose body can
throw (`deleteWordRight` dereferences `match[0]` of a regex match that can
be `null`) return `none` in that case; all others always return `some`. -/

structure LineState where
  line : JStr
  cursor : Int
deriving DecidableEq, Repr

/-- Argument of `moveCursor`: a finite delta or the `±Infinity` sentinels
used by Home/End and `clearLine`. -/
inductive Delta where
  | fin (dx : Int)
  | posInf
  | negInf
deriving DecidableEq, Repr

/-- Cursor clamping at the end of `moveCursor`:
`if cursor < 0 then 0 else if cursor > len then len`. -/
def clampCursor (len : Nat) (c : Int) : Int :=
  if c < 0 then 0 else if (len : Int) < c then (len : Int) else c

/-- `moveCursor(dx)` (the `line`/`cursor` effect; rendering is modelled at
the session level).  `cursor += dx` followed by the bounds check; the
`±Infinity` sentinels land on the respective clamp. -/
def moveCursorLC (st : LineState) (d : Delta) : LineState :=
  match d with
  | .fin dx => { st with cursor := clampCursor st.line.length (st.cursor + dx) }
  | .posInf => { st with cursor := (st.line.length : Int) }
  | .negInf => { st with cursor := 0 }

/-- `insertString(shim)`: splice at the cursor (or append when the cursor
is at or past the end), advancing the cursor by `shim.length`. -/
def insertStringLC (st : LineState) (shim : JStr) : LineState :=
  if st.cursor < (st.line.length : Int) then
    { line := jsSlice st.line 0 st.cursor ++ shim ++ jsSlice st.line st.cursor st.line.length,
      cursor := st.cursor + (shim.length : Int) }
  else
    { line := st.line ++ shim, cursor := st.cursor + (shim.length : Int) }

/-- `deleteLeft()`: remove `charLengthLeft` units left of the cursor. -/
def deleteLeftLC (st : LineState) : LineState :=
  if 0 < st.cursor ∧ 0 < st.line.length then
    let charSize := charLengthLeft st.line st.cursor
    { line := jsSlice st.line 0 (st.cursor - charSize) ++ jsSlice st.line st.cursor st.line.length,
      cursor := st.cursor - charSize }
  else st

/-- `deleteRight()`: remove `charLengthAt` units at the cursor. -/
def deleteRightLC (st : LineState) : LineState :=
  if st.cursor < (st.line.length : Int) then
    let charSize := charLengthAt st.line st.cursor
    { line := jsSlice st.line 0 st.cursor ++ jsSlice st.line (st.cursor + charSize) st.line.length,
      cursor := st.cursor }
  else st

/-- `deleteWordLeft()`: match the word pattern against the reversed leading
text and drop the matched suffix of the leading text. -/
def deleteWordLeftLC (st : LineState) : LineState :=
  if 0 < st.cursor then
    let leading := jsSlice st.line 0 st.cursor
    let m := wordLeftMatchLen leading.reverse
    let leading2 := jsSlice leading 0 ((leading.length : Int) - m)
    { line := leading2 ++ jsSlice st.line st.cursor st.line.length,
      cursor := (leading2.length : Int) }
  else st

/-- `deleteWordRight()`: match the word pattern against the trailing text
and drop the match; `none` when the regex match is `null` and the source
dereference of `match[0]` throws (only possible from a state with a
negative cursor and an empty line). -/
def deleteWordRightLC (st : LineState) : Option LineState :=
  if st.cursor < (st.line.length : Int) then
    let trailing := jsSliceFrom st.line st.cursor
    match wordRightMatchLen trailing with
    | none => none
    | some m =>
      some { line := jsSlice st.line 0 st.cursor ++ jsSliceFrom trailing (m : Int),
             cursor := st.cursor }
  else some st

/-- `deleteLineLeft()`: truncate up to the cursor. -/
def deleteLineLeftLC (st : LineState) : LineState :=
  { line := jsSliceFrom st.line st.cursor, cursor := 0 }

/-- `deleteLineRight()`: truncate from the cursor. -/
def deleteLineRightLC (st : LineState) : LineState :=
  { line := jsSlice st.line 0 st.cursor, cursor := st.cursor }

/-- One Line Buffer operation. -/
inductive LineOp where
  | insert (shim : JStr)
  | delL
  | delR
  | delWordL
  | delWordR
  | delLineL
  | delLineR
  | move (d : Delta)
deriving DecidableEq, Repr

/-- Apply one operation; `none` means the operation threw. -/
def applyOp (st : LineState) : LineOp → Option LineState
  | .insert shim => some (insertStringLC st shim)
  | .delL => some (deleteLeftLC st)
  | .delR => some (deleteRightLC st)
  | .delWordL => some (deleteWordLeftLC st)
  | .delWordR => deleteWordRightLC st
  | .delLineL => some (deleteLineLeftLC st)
  | .delLineR => some (deleteLineRightLC st)
  | .move d => some (moveCursorLC st d)

/-- Apply a sequence of operations. -/
def applyOps (st : LineState) (ops : List LineOp) : Option LineState :=
  ops.foldlM applyOp st

/-! ## Unicode Width Oracle and display positions

`getStringWidth`, `isFullWidthCodePoint` and `stripVTControlCharacters`
come from `internal/readline/utils`, which is not part of this repository;
the definitions below are modelled from the specification (spec section 4.1:
a pure `widthOf(codePoint) -> 0 | 1 | 2` oracle, zero width for
combining/control marks, two columns for East-Asian full-width code
points). -/

/-- Modelled from the spec: full-width (two-column) code points, the
classic East-Asian wide/fullwidth ranges. -/
def isFullWidthCodePoint (code : Nat) : Bool :=
  decide (0x1100 ≤ code ∧
    (code ≤ 0x115F ∨ code = 0x2329 ∨ code = 0x232A ∨
     (0x2E80 ≤ code ∧ code ≤ 0xA4CF ∧ code ≠ 0x303F) ∨
     (0xAC00 ≤ code ∧ code ≤ 0xD7A3) ∨
     (0xF900 ≤ code ∧ code ≤ 0xFAFF) ∨
     (0xFE10 ≤ code ∧ code ≤ 0xFE19) ∨
     (0xFE30 ≤ code ∧ code ≤ 0xFE6B) ∨
     (0xFF00 ≤ code ∧ code ≤ 0xFF60) ∨
     (0xFFE0 ≤ code ∧ code ≤ 0xFFE6) ∨
     (0x1B000 ≤ code ∧ code ≤ 0x1B001) ∨
     (0x1F200 ≤ code ∧ code ≤ 0x1F251) ∨
     (0x20000 ≤ code ∧ code ≤ 0x3FFFD)))

/-- Modelled from the spec: zero-width code points (control characters and
combining marks contribute nothing to the displayed width). -/
def isZeroWidthCodePoint (code : Nat) : Bool :=
  decide (code < 0x20 ∨ (0x7F ≤ code ∧ code ≤ 0x9F) ∨ (0x300 ≤ code ∧ code ≤ 0x36F))

/-- Modelled from the spec: `getStringWidth` on a single code point, the
Unicode Width Oracle `widthOf(codePoint) -> 0 | 1 | 2`. -/
def getStringWidthCode (code : Nat) : Nat :=
  if isZeroWidthCodePoint code then 0
  else if isFullWidthCodePoint code then 2
  else 1

/-- Modelled from the spec: `stripVTControlCharacters` removes VT escape
sequences (an `ESC` unit, an optional run of intermediate units, and a
final unit in `0x40..0x7E`); ordinary text is kept unchanged.  The flag is
true while inside an escape sequence. -/
def stripVTAux : Bool → JStr → JStr
  | _, [] => []
  | false, c :: r => if c = 0x1B then stripVTAux true r else c :: stripVTAux false r
  | true, c :: r =>
    if 0x40 ≤ c ∧ c ≤ 0x7E ∧ c ≠ 0x5B then stripVTAux false r else stripVTAux true r

/-- Modelled from the spec: `stripVTControlCharacters`. -/
def stripVT (s : JStr) : JStr := stripVTAux false s

/-- A display position: column and row of the final cursor cell. -/
structure DispPos where
  cols : Nat
  rows : Nat
deriving DecidableEq, Repr

/-- The row increment of `getDisplayPos` on a `\n`:
`row += Math.ceil(offset / col) || 1`. -/
def rowAdvance (colW offset : Nat) : Nat :=
  let adv := (offset + colW - 1) / colW
  if adv = 0 then 1 else adv

/-- The offset update of one `getDisplayPos` iteration for a non-newline
code point: add its width, a full-width code point that would straddle the
right edge first burning the last column. -/
def stepOffset (colW code offset : Nat) : Nat :=
  let width := getStringWidthCode code
  if width ≤ 1 then offset + width
  else (if (offset + 1) % colW = 0 then offset + 1 else offset) + 2

/-- The scanning loop of `getDisplayPos`: iterate the code units, pairing
surrogates (`code >= kUTF16SurrogateThreshold` advances one extra unit), a
`\n` flushing the running offset into `row` via `rowAdvance`, any other
code point updating the offset via `stepOffset`. -/
def displayLoop (colW : Nat) : JStr → Nat → Nat → Nat × Nat
  | [], offset, row => (offset, row)
  | [c], offset, row =>
    if c = 0x0A then (0, row + rowAdvance colW offset)
    else (stepOffset colW c offset, row)
  | c :: c2 :: r2, offset, row =>
    if isHighSurrogate c ∧ isLowSurrogate c2 then
      let code := combineSurrogates c c2
      if code = 0x0A then displayLoop colW r2 0 (row + rowAdvance colW offset)
      else displayLoop colW r2 (stepOffset colW code offset) row
    else
      if c = 0x0A then displayLoop colW (c2 :: r2) 0 (row + rowAdvance colW offset)
      else displayLoop colW (c2 :: r2) (stepOffset colW c offset) row

/-- `getDisplayPos(s)` for a terminal of width `colW`: final
`cols = offset % col`, `rows = row + (offset - cols) / col`. -/
def getDisplayPos (colW : Nat) (s : JStr) : DispPos :=
  let s' := stripVT s
  let (offset, row) := displayLoop colW s' 0 0
  { cols := offset % colW, rows := row + (offset - offset % colW) / colW }

/-- `getCursorPos()` for terminal width `colW`, prompt `prompt`, the given
line and cursor: the display position of the text before the cursor, with
the full-width wrap correction when the character at the cursor is
full-width and would land in the last column. -/
def getCursorPos (colW : Nat) (prompt line : JStr) (cursor : Int) : DispPos :=
  let strBeforeCursor := prompt ++ line.take cursor.toNat
  let dispPos := getDisplayPos colW (stripVT strBeforeCursor)
  let isFW :=
    match codePointAtI line cursor with
    | none => false
    | some code => isFullWidthCodePoint code
  if dispPos.cols + 1 = colW ∧ cursor < (line.length : Int) ∧ isFW = true then
    { cols := 0, rows := dispPos.rows + 1 }
  else dispPos

/-! ## Session state

The observable state of one `TTYInterface`, together with the
configuration values of the interface.  `output` records each payload
passed to `writeToOutput` (the source body of `writeToOutput` is an
unfinished stub — `this.output.write()` with the `buffer` argument dropped
and a `//Need to promisify` note — so what is modelled is the sequence of
`writeToOutput` invocations), `emitted` records each `'line'` event, and
`refreshes` counts the `refreshLine` invocations. -/

/-- `kHistorySize` from `src/readline.ts`. -/
def kHistorySize : Nat := 30

/-- `kMincrlfDelay` from `src/readline.ts`. -/
def kMincrlfDelay : Nat := 100

structure Config where
  columns : Nat := 80
  promptText : JStr := strCodes "> "
  historySize : Nat := kHistorySize
  removeHistoryDuplicates : Bool := false
  crlfDelay : Nat := kMincrlfDelay
  hasSigintListener : Bool := false
  isCompletionEnabled : Bool := true
deriving DecidableEq, Repr

/-- Key names that the `normalTTYWriter` dispatch distinguishes. -/
inductive KeyName where
  | escape | c | h | d | u | k | a | e | b | f | l | n | p | z | w
  | backspace | delete | left | right | home | endKey | up | down | tab
  | retKey   -- the `'return'` key, i.e. `\r`
  | enter    -- the `'enter'` key, i.e. `\n`
  | other
deriving DecidableEq, Repr

/-- A decoded key event as delivered to the writer. -/
structure Key where
  name : KeyName := .other
  ctrl : Bool := false
  metaMod : Bool := false
  shift : Bool := false
deriving DecidableEq, Repr

structure Session where
  line : JStr := []
  cursor : Int := 0
  history : List JStr := []
  historyIndex : Int := -1
  sawReturnAt : Nat := 0
  prevRows : Nat := 0
  paused : Bool := false
  closed : Bool := false
  previousKey : Option KeyName := none
  emitted : List JStr := []
  output : List JStr := []
  refreshes : Nat := 0
  sigints : Nat := 0
deriving DecidableEq, Repr

/-- The `line`/`cursor` fragment of a session. -/
def Session.lc (s : Session) : LineState := ⟨s.line, s.cursor⟩

/-- Install a Line Buffer result back into the session. -/
def Session.withLC (s : Session) (st : LineState) : Session :=
  { s with line := st.line, cursor := st.cursor }

/-- `writeToOutput(buffer)`: record the payload. -/
def writeOut (s : Session) (buffer : JStr) : Session :=
  { s with output := s.output ++ [buffer] }

/-- `pause()`. -/
def pauseS (s : Session) : Session :=
  if s.paused then s else { s with paused := true }

/-- `resume()`. -/
def resumeS (s : Session) : Session :=
  if s.paused then { s with paused := false } else s

/-- `close()`: pause, leave raw mode (not modelled), mark closed. -/
def closeS (s : Session) : Session :=
  if s.closed then s else { s with paused := true, closed := true }

/-- `getCursorPos()` on the session state. -/
def getCursorPosS (cfg : Config) (s : Session) : DispPos :=
  getCursorPos cfg.columns cfg.promptText s.line s.cursor

/-- `refreshLine()`: recompute the display, rewrite the line (terminal
escape output is not modelled; the forced-allocation padding space goes
through `writeToOutput` and is recorded), update `prevRows`, and count the
redraw. -/
def refreshLineS (cfg : Config) (s : Session) : Session :=
  let dispPos := getDisplayPos cfg.columns (cfg.promptText ++ s.line)
  let cursorPos := getCursorPosS cfg s
  let s := if dispPos.cols = 0 then writeOut s (strCodes " ") else s
  { s with refreshes := s.refreshes + 1, prevRows := cursorPos.rows }

/-- `moveCursor(dx)`: clamp the cursor; when the display row changed, do a
full refresh, otherwise only terminal cursor movement (not modelled) and a
`prevRows` update. -/
def moveCursorS (cfg : Config) (s : Session) (d : Delta) : Session :=
  let oldPos := getCursorPosS cfg s
  let s1 := s.withLC (moveCursorLC s.lc d)
  let newPos := getCursorPosS cfg s1
  if oldPos.rows = newPos.rows then { s1 with prevRows := newPos.rows }
  else refreshLineS cfg s1

/-- `insertString(shim)`. -/
def insertStringS (cfg : Config) (s : Session) (shim : JStr) : Session :=
  if s.cursor < (s.line.length : Int) then
    refreshLineS cfg (s.withLC (insertStringLC s.lc shim))
  else
    let s1 := s.withLC (insertStringLC s.lc shim)
    if (getCursorPosS cfg s1).cols = 0 then refreshLineS cfg s1
    else moveCursorS cfg (writeOut s1 shim) (.fin 0)

/-- `deleteLeft()`. -/
def deleteLeftS (cfg : Config) (s : Session) : Session :=
  if 0 < s.cursor ∧ 0 < s.line.length then
    refreshLineS cfg (s.withLC (deleteLeftLC s.lc))
  else s

/-- `deleteRight()`. -/
def deleteRightS (cfg : Config) (s : Session) : Session :=
  if s.cursor < (s.line.length : Int) then
    refreshLineS cfg (s.withLC (deleteRightLC s.lc))
  else s

/-- `deleteWordLeft()`. -/
def deleteWordLeftS (cfg : Config) (s : Session) : Session :=
  if 0 < s.cursor then
    refreshLineS cfg (s.withLC (deleteWordLeftLC s.lc))
  else s

/-- `deleteWordRight()`; `none` when the underlying regex dereference
throws. -/
def deleteWordRightS (cfg : Config) (s : Session) : Option Session :=
  if s.cursor < (s.line.length : Int) then
    match deleteWordRightLC s.lc with
    | none => none
    | some st => some (refreshLineS cfg (s.withLC st))
  else some s

/-- `deleteLineLeft()`. -/
def deleteLineLeftS (cfg : Config) (s : Session) : Session :=
  refreshLineS cfg (s.withLC (deleteLineLeftLC s.lc))

/-- `deleteLineRight()`. -/
def deleteLineRightS (cfg : Config) (s : Session) : Session :=
  refreshLineS cfg (s.withLC (deleteLineRightLC s.lc))

/-- `wordLeft()`. -/
def wordLeftS (cfg : Config) (s : Session) : Session :=
  if 0 < s.cursor then
    let leading := jsSlice s.line 0 s.cursor
    moveCursorS cfg s (.fin (-(wordLeftMatchLen leading.reverse : Int)))
  else s

/-- `wordRight()`; `none` when the underlying regex dereference throws. -/
def wordRightS (cfg : Config) (s : Session) : Option Session :=
  if s.cursor < (s.line.length : Int) then
    match wordRightMoveLen (jsSliceFrom s.line s.cursor) with
    | none => none
    | some m => some (moveCursorS cfg s (.fin (m : Int)))
  else some s

/-! ## History Ring -/

/-- `history.splice(history.indexOf(line), 1)`: remove the first
occurrence, keep the list unchanged when the element is absent. -/
def removeFirst (x : JStr) : List JStr → List JStr
  | [] => []
  | a :: r => if a = x then r else a :: removeFirst x r

/-- `history[i]` at a (guarded in-range) index; an out-of-range access
would be `undefined`, modelled as the empty string. -/
def jsHistGet (l : List JStr) (i : Int) : JStr :=
  if 0 ≤ i then (l.get? i.toNat).getD [] else []

/-- `addHistory()`: returns the updated session and the returned string.
Skips empty and whitespace-only lines and (unless the line repeats the
most recent entry) pushes to the front, optionally removing an older
duplicate, and evicts from the back past `historySize`. -/
def addHistoryS (cfg : Config) (s : Session) : Session × JStr :=
  if s.line.length = 0 then (s, [])
  else if cfg.historySize = 0 then (s, s.line)
  else if (jsTrim s.line).length = 0 then (s, s.line)
  else
    let s1 :=
      if s.history.length = 0 ∨ s.history.headD [] ≠ s.line then
        let hist :=
          if cfg.removeHistoryDuplicates then removeFirst s.line s.history
          else s.history
        let hist := s.line :: hist
        let hist := if cfg.historySize < hist.length then hist.dropLast else hist
        { s with history := hist }
      else s
    ({ s1 with historyIndex := -1 }, s1.history.headD [])

/-- `historyNext()`. -/
def historyNextS (cfg : Config) (s : Session) : Session :=
  if 0 < s.historyIndex then
    let idx := s.historyIndex - 1
    let ln := jsHistGet s.history idx
    refreshLineS cfg { s with historyIndex := idx, line := ln, cursor := (ln.length : Int) }
  else if s.historyIndex = 0 then
    refreshLineS cfg { s with historyIndex := -1, cursor := 0, line := [] }
  else s

/-- `historyPrev()`. -/
def historyPrevS (cfg : Config) (s : Session) : Session :=
  if s.historyIndex + 1 < (s.history.length : Int) then
    let idx := s.historyIndex + 1
    let ln := jsHistGet s.history idx
    refreshLineS cfg { s with historyIndex := idx, line := ln, cursor := (ln.length : Int) }
  else s

/-- `clearLine()`: move the cursor to the end, write `\r\n`, reset the
line, the cursor and `prevRows`. -/
def clearLineS (cfg : Config) (s : Session) : Session :=
  let s1 := moveCursorS cfg s .posInf
  let s2 := writeOut s1 (strCodes "\r\n")
  { s2 with line := [], cursor := 0, prevRows := 0 }

/-- The `line()` method: commit the current line — add it to history,
clear the buffer, and emit the `'line'` event with `addHistory`'s return
value (`onLine`/`lineHandler` with no pending question emits `'line'`). -/
def lineCommitS (cfg : Config) (s : Session) : Session :=
  let (s1, ln) := addHistoryS cfg s
  let s2 := clearLineS cfg s1
  { s2 with emitted := s2.emitted ++ [ln] }

/-! ## Completion -/

/-- Lexicographic comparison of UTF-16 code-unit strings, the default
`Array.prototype.sort` comparator on strings. -/
def lexLe : JStr → JStr → Bool
  | [], _ => true
  | _ :: _, [] => false
  | a :: as, b :: bs => if a < b then true else if b < a then false else lexLe as bs

/-- `strings.slice().sort()`: a sorted permutation.  With the
lexicographic total order, equal-comparing elements are equal strings, so
every sorted permutation is the same list of values; insertion sort is
used as the executable model. -/
def jsInsertSorted (x : JStr) : List JStr → List JStr
  | [] => [x]
  | y :: r => if lexLe x y then x :: y :: r else y :: jsInsertSorted x r

/-- See `jsInsertSorted`. -/
def jsSort : List JStr → List JStr
  | [] => []
  | x :: r => jsInsertSorted x (jsSort r)

/-- Longest common prefix of two code-unit strings; the scanning loop of
`commonPrefix` (`for i < min.length, stop at the first mismatch`) computes
exactly this, since a mismatch against `undefined` when `max` is the
shorter string also stops the loop. -/
def lcp2 : JStr → JStr → JStr
  | a :: as, b :: bs => if a = b then a :: lcp2 as bs else []
  | _, _ => []

/-- `commonPrefix(strings)` from `src/readline.ts`: empty for an empty
array, the sole element for a singleton, otherwise the common prefix of
the lexicographic minimum and maximum (first and last of the sorted
copy). -/
def commonPrefix (strings : List JStr) : JStr :=
  match strings with
  | [] => []
  | [s] => s
  | _ :: _ :: _ =>
    let sorted := jsSort strings
    lcp2 (sorted.headD []) (sorted.getLastD [])

/-- `completions.reduce((a, b) => a.length > b.length ? a : b)`: the
longest entry (ties resolved to the later one). -/
def jsReduceLongest (l : List JStr) : JStr :=
  match l with
  | [] => []
  | h :: t => t.foldl (fun a b => if b.length < a.length then a else b) h

/-- `handleGroup(group, width, maxColumns)`: print a group of completions
in right-padded columns.  The source's inner `break` when
`idx >= group.length` is equivalent to skipping the remaining columns of
the row, since `idx` grows with the column number. -/
def handleGroupS (s : Session) (group : List JStr) (width maxColumns : Nat) : Session :=
  if group.length = 0 then s
  else
    let minRows := (group.length + maxColumns - 1) / maxColumns
    let s := (List.range minRows).foldl (fun s row =>
      let s := (List.range maxColumns).foldl (fun s col =>
        let idx := row * maxColumns + col
        if group.length ≤ idx then s
        else
          let item := (group.get? idx).getD []
          let s := writeOut s item
          if col < maxColumns - 1 then
            (List.replicate (width - item.length) (strCodes " ")).foldl writeOut s
          else s) s
      writeOut s (strCodes "\r\n")) s
    writeOut s (strCodes "\r\n")

/-- The double-Tab candidate display of `tabComplete`: `\r\n`, column
width from the longest candidate plus two, at least one column, the
candidate list split into groups at empty strings, each group printed by
`handleGroup`. -/
def displayCompletionsS (cfg : Config) (s : Session) (completions : List JStr) : Session :=
  let s := writeOut s (strCodes "\r\n")
  let width := (jsReduceLongest completions).length + 2
  let maxColumns0 := cfg.columns / width
  let maxColumns := if maxColumns0 = 0 then 1 else maxColumns0
  let step := completions.foldl
    (fun (acc : Session × List JStr) c =>
      if c = [] then (handleGroupS acc.1 acc.2 width maxColumns, [])
      else (acc.1, acc.2 ++ [c])) (s, [])
  handleGroupS step.1 step.2 width maxColumns

/-- Outcome of the external completer callback: rejection with an error,
or `[completions, completeOn]`. -/
inductive CompleterResult where
  | err (e : JStr)
  | ok (completions : List JStr) (completeOn : JStr)
deriving DecidableEq, Repr

/-- `tabComplete(lastKeypressWasTab)` including the completer callback:
pause, then on callback resume; on rejection report the error through
`writeToOutput` and stop; on success with a nonempty candidate list show
the candidates (when the previous key was also Tab), insert the part of
the candidates' common prefix that extends `completeOn`, and refresh. -/
def tabCompleteS (cfg : Config) (s0 : Session) (lastKeypressWasTab : Bool)
    (cr : CompleterResult) : Session :=
  let s := pauseS s0
  let s := resumeS s
  match cr with
  | .err e => writeOut s (strCodes "tab completion error " ++ e)
  | .ok completions completeOn =>
    if completions.length ≠ 0 then
      let s := if lastKeypressWasTab then displayCompletionsS cfg s completions else s
      let f := completions.filter (fun e => e ≠ [])
      let pfx := commonPrefix f
      let s :=
        if completeOn.length < pfx.length then
          insertStringS cfg s (pfx.drop completeOn.length)
        else s
      refreshLineS cfg s
    else s

/-! ## Key dispatcher -/

/-- Split on `/\r\n|\n|\r/` (the default-branch line split). -/
def splitNL : JStr → List JStr
  | [] => [[]]
  | 13 :: 10 :: r => [] :: splitNL r
  | 13 :: r => [] :: splitNL r
  | 10 :: r => [] :: splitNL r
  | c :: r =>
    match splitNL r with
    | h :: t => (c :: h) :: t
    | [] => [[c]]

/-- The default branch of `normalTTYWriter`: insert the printable
sequence, committing a line between the pieces of a multi-line paste. -/
def defaultInsertS (cfg : Config) (s : Session) (seq : Option JStr) : Session :=
  match seq with
  | none => s
  | some [] => s
  | some l =>
    match splitNL l with
    | [] => s
    | first :: rest =>
      let s := insertStringS cfg s first
      rest.foldl (fun s piece => insertStringS cfg (lineCommitS cfg s) piece) s

/-- `normalTTYWriter(sequence, key)` (with `TERM` not `dumb`).  `now` is
`Date.now()` at the key event; `cr` is the completer outcome consumed if
this event triggers completion.  `none` models a thrown exception (only
the `deleteWordRight`/`wordRight` regex dereference can throw).  `Ctrl-Z`
process suspension and the raw-mode/terminal side effects are outside the
model; `Ctrl-C` with a `SIGINT` listener counts the emitted signal. -/
def ttyWrite (cfg : Config) (now : Nat) (seq : Option JStr) (key : Key)
    (cr : CompleterResult) (s : Session) : Option Session :=
  let previousKey := s.previousKey
  let s := { s with previousKey := some key.name }
  if key.name = .escape then some s
  else if key.ctrl && key.shift then
    match key.name with
    | .backspace => some (deleteLineLeftS cfg s)
    | .delete => some (deleteLineRightS cfg s)
    | _ => some s
  else if key.ctrl then
    match key.name with
    | .c => some (if cfg.hasSigintListener then { s with sigints := s.sigints + 1 } else closeS s)
    | .h => some (deleteLeftS cfg s)
    | .d =>
      some (if s.cursor = 0 ∧ s.line.length = 0 then closeS s
            else if s.cursor < (s.line.length : Int) then deleteRightS cfg s
            else s)
    | .u => some (deleteLineLeftS cfg s)
    | .k => some (deleteLineRightS cfg s)
    | .a => some (moveCursorS cfg s .negInf)
    | .e => some (moveCursorS cfg s .posInf)
    | .b => some (moveCursorS cfg s (.fin (-(charLengthLeft s.line s.cursor : Int))))
    | .f => some (moveCursorS cfg s (.fin (charLengthAt s.line s.cursor : Int)))
    | .l => some (refreshLineS cfg s)
    | .n => some (historyNextS cfg s)
    | .p => some (historyPrevS cfg s)
    | .z => some s
    | .w => some (deleteWordLeftS cfg s)
    | .backspace => some (deleteWordLeftS cfg s)
    | .delete => deleteWordRightS cfg s
    | .left => some (wordLeftS cfg s)
    | .right => wordRightS cfg s
    | _ => some s
  else if key.metaMod then
    match key.name with
    | .b => some (wordLeftS cfg s)
    | .f => wordRightS cfg s
    | .d => deleteWordRightS cfg s
    | .delete => deleteWordRightS cfg s
    | .backspace => some (deleteWordLeftS cfg s)
    | _ => some s
  else
    let s := if s.sawReturnAt ≠ 0 ∧ key.name ≠ .enter then { s with sawReturnAt := 0 } else s
    match key.name with
    | .retKey => some (lineCommitS cfg { s with sawReturnAt := now })
    | .enter =>
      let s :=
        if s.sawReturnAt = 0 ∨ cfg.crlfDelay < now - s.sawReturnAt then lineCommitS cfg s
        else s
      some { s with sawReturnAt := 0 }
    | .backspace => some (deleteLeftS cfg s)
    | .delete => some (deleteRightS cfg s)
    | .left => some (moveCursorS cfg s (.fin (-(charLengthLeft s.line s.cursor : Int))))
    | .right => some (moveCursorS cfg s (.fin (charLengthAt s.line s.cursor : Int)))
    | .home => some (moveCursorS cfg s .negInf)
    | .endKey => some (moveCursorS cfg s .posInf)
    | .up => some (historyPrevS cfg s)
    | .down => some (historyNextS cfg s)
    | .tab =>
      if cfg.isCompletionEnabled then
        some (tabCompleteS cfg s (previousKey = some .tab) cr)
      else some (defaultInsertS cfg s seq)
    | _ => some (defaultInsertS cfg s seq)

/-- Process a list of timed key events through `normalTTYWriter` (no
printable sequence payload, no completion outcome). -/
def processKeys (cfg : Config) (s : Session) (evs : List (Nat × Key)) : Option Session :=
  evs.foldlM (fun s ev => ttyWrite cfg ev.1 none ev.2 (.ok [] []) s) s

/-- Type a line into the buffer and commit it through `addHistory` (the
history effect of the `line()` method for a given buffer content). -/
def commitLine (cfg : Config) (s : Session) (l : JStr) : Session :=
  (addHistoryS cfg { s with line := l }).1

/-- Commit a list of lines in order through `addHistory`. -/
def commitAll (cfg : Config) (s : Session) (ls : List JStr) : Session :=
  ls.foldl (commitLine cfg) s

/-- One History Ring operation (`addHistory` acts on the current buffer,
set by editing before the commit). -/
inductive HistOp where
  | add (l : JStr)
  | prev
  | next
deriving DecidableEq, Repr

/-- Apply one History Ring operation to a session. -/
def applyHistOp (cfg : Config) (s : Session) : HistOp → Session
  | .add l => commitLine cfg s l
  | .prev => historyPrevS cfg s
  | .next => historyNextS cfg s


/-! ## Basic lemmas about the string primitives -/

theorem jsIndex_ofNat (len b : Nat) : jsIndex len (b : Int) = min b len := by
  unfold jsIndex
  rw [if_neg (by omega : ¬ (b : Int) < 0), Int.toNat_ofNat]

theorem jsSlice_zero_ofNat (s : JStr) (b : Nat) : jsSlice s 0 (b : Int) = s.take b := by
  unfold jsSlice
  rw [show ((0 : Int) = ((0 : Nat) : Int)) by norm_num, jsIndex_ofNat, jsIndex_ofNat]
  simp only [Nat.zero_min, List.drop_zero, Nat.sub_zero]
  rcases le_total b s.length with hb | hb
  · rw [min_eq_left hb]
  · rw [min_eq_right hb, List.take_of_length_le hb, List.take_of_length_le le_rfl]

theorem jsSlice_ofNat_len (s : JStr) (a : Nat) :
    jsSlice s (a : Int) (s.length : Int) = s.drop a := by
  unfold jsSlice
  rw [jsIndex_ofNat, jsIndex_ofNat]
  simp only [min_self]
  rcases le_total a s.length with ha | ha
  · rw [min_eq_left ha, List.take_of_length_le (by simp)]
  · rw [min_eq_right ha, List.take_of_length_le (by simp), List.drop_of_length_le ha,
      List.drop_of_length_le le_rfl]

theorem jsSlice_zero_neg_one (s : JStr) : jsSlice s 0 (-1) = s.take (s.length - 1) := by
  unfold jsSlice jsIndex
  rw [if_neg (by omega : ¬ (0 : Int) < 0), if_pos (by omega : (-1 : Int) < 0)]
  have h1 : ((s.length : Int) + -1).toNat = s.length - 1 := by omega
  have h2 : (0 : Int).toNat = 0 := rfl
  rw [h1, h2]
  simp

theorem jsSlice_neg_one_len (s : JStr) : jsSlice s (-1) (s.length : Int) = s.drop (s.length - 1) := by
  unfold jsSlice
  rw [jsIndex_ofNat]
  unfold jsIndex
  rw [if_pos (by omega : (-1 : Int) < 0)]
  have h1 : ((s.length : Int) + -1).toNat = s.length - 1 := by omega
  rw [h1, min_self, List.take_of_length_le (by simp)]

theorem jsSliceFrom_ofNat (s : JStr) (a : Nat) : jsSliceFrom s (a : Int) = s.drop a :=
  jsSlice_ofNat_len s a

theorem jsSliceFrom_neg_one (s : JStr) : jsSliceFrom s (-1) = s.drop (s.length - 1) :=
  jsSlice_neg_one_len s

theorem takeWhile_dropWhile_length (p : Nat → Bool) (s : JStr) :
    (s.takeWhile p).length + (s.dropWhile p).length = s.length := by
  rw [← List.length_append, List.takeWhile_append_dropWhile]

theorem wordLeftMatchLen_le (s : JStr) : wordLeftMatchLen s ≤ s.length := by
  unfold wordLeftMatchLen
  have hlen := takeWhile_dropWhile_length isSpaceCu s
  cases hrest : s.dropWhile isSpaceCu with
  | nil => rw [hrest] at hlen; simp at hlen; simp [hlen]
  | cons c t =>
    rw [hrest] at hlen
    have h1 : ((c :: t).takeWhile isWordCu).length ≤ (c :: t).length :=
      (List.takeWhile_sublist _).length_le
    have h2 : ((c :: t).takeWhile (fun x => !isWordCu x && !isSpaceCu x)).length ≤ (c :: t).length :=
      (List.takeWhile_sublist _).length_le
    dsimp only
    split <;> simp only [List.length_cons] at * <;> omega

theorem wordRightMatchLen_le (s : JStr) (m : Nat) (h : wordRightMatchLen s = some m) :
    m ≤ s.length := by
  unfold wordRightMatchLen at h
  cases s with
  | nil => simp at h
  | cons c t =>
    have h1 : ((c :: t).takeWhile isSpaceCu).length ≤ (c :: t).length :=
      (List.takeWhile_sublist _).length_le
    have h2 : ((c :: t).takeWhile (fun x => !isWordCu x)).length ≤ (c :: t).length :=
      (List.takeWhile_sublist _).length_le
    have h3 : ((c :: t).takeWhile isWordCu).length ≤ (c :: t).length :=
      (List.takeWhile_sublist _).length_le
    have h4 : (((c :: t).drop ((c :: t).takeWhile isWordCu).length).takeWhile isSpaceCu).length ≤
        ((c :: t).drop ((c :: t).takeWhile isWordCu).length).length :=
      (List.takeWhile_sublist _).length_le
    simp only [List.length_drop] at h4
    dsimp only at h
    split_ifs at h <;> simp only [Option.some.injEq] at h <;>
      simp only [List.length_cons] at * <;> omega

theorem wordRightMatchLen_pos (s : JStr) (m : Nat) (h : wordRightMatchLen s = some m) :
    1 ≤ m := by
  unfold wordRightMatchLen at h
  cases s with
  | nil => simp at h
  | cons c t =>
    dsimp only at h
    split_ifs at h with hsp hw <;> simp only [Option.some.injEq] at h
    · rw [← h]; simp [List.takeWhile_cons, hsp]
    · rw [← h]; simp [List.takeWhile_cons, hw]
    · have hw' : isWordCu c = true := by
        cases hwc : isWordCu c
        · rw [hwc] at hw; simp at hw
        · rfl
      have : 1 ≤ ((c :: t).takeWhile isWordCu).length := by
        simp [List.takeWhile_cons, hw']
      omega

/-! ## Preservation lemmas for the session operations -/

theorem writeOut_eta (s : Session) (b : JStr) :
    writeOut s b = { s with output := s.output ++ [b] } := rfl

@[simp] theorem writeOut_line (s : Session) (b : JStr) : (writeOut s b).line = s.line := rfl

@[simp] theorem writeOut_cursor (s : Session) (b : JStr) : (writeOut s b).cursor = s.cursor := rfl

@[simp] theorem writeOut_history (s : Session) (b : JStr) : (writeOut s b).history = s.history := rfl

@[simp] theorem writeOut_historyIndex (s : Session) (b : JStr) :
    (writeOut s b).historyIndex = s.historyIndex := rfl

@[simp] theorem writeOut_emitted (s : Session) (b : JStr) : (writeOut s b).emitted = s.emitted := rfl

@[simp] theorem writeOut_closed (s : Session) (b : JStr) : (writeOut s b).closed = s.closed := rfl

@[simp] theorem writeOut_paused (s : Session) (b : JStr) : (writeOut s b).paused = s.paused := rfl

@[simp] theorem writeOut_refreshes (s : Session) (b : JStr) :
    (writeOut s b).refreshes = s.refreshes := rfl

@[simp] theorem writeOut_sawReturnAt (s : Session) (b : JStr) :
    (writeOut s b).sawReturnAt = s.sawReturnAt := rfl

@[simp] theorem writeOut_previousKey (s : Session) (b : JStr) :
    (writeOut s b).previousKey = s.previousKey := rfl

@[simp] theorem refreshLineS_line (cfg : Config) (s : Session) :
    (refreshLineS cfg s).line = s.line := by
  simp only [refreshLineS]; split <;> rfl

@[simp] theorem refreshLineS_cursor (cfg : Config) (s : Session) :
    (refreshLineS cfg s).cursor = s.cursor := by
  simp only [refreshLineS]; split <;> rfl

@[simp] theorem refreshLineS_history (cfg : Config) (s : Session) :
    (refreshLineS cfg s).history = s.history := by
  simp only [refreshLineS]; split <;> rfl

@[simp] theorem refreshLineS_historyIndex (cfg : Config) (s : Session) :
    (refreshLineS cfg s).historyIndex = s.historyIndex := by
  simp only [refreshLineS]; split <;> rfl

@[simp] theorem refreshLineS_emitted (cfg : Config) (s : Session) :
    (refreshLineS cfg s).emitted = s.emitted := by
  simp only [refreshLineS]; split <;> rfl

@[simp] theorem refreshLineS_closed (cfg : Config) (s : Session) :
    (refreshLineS cfg s).closed = s.closed := by
  simp only [refreshLineS]; split <;> rfl

@[simp] theorem refreshLineS_paused (cfg : Config) (s : Session) :
    (refreshLineS cfg s).paused = s.paused := by
  simp only [refreshLineS]; split <;> rfl

@[simp] theorem refreshLineS_sawReturnAt (cfg : Config) (s : Session) :
    (refreshLineS cfg s).sawReturnAt = s.sawReturnAt := by
  simp only [refreshLineS]; split <;> rfl

@[simp] theorem refreshLineS_previousKey (cfg : Config) (s : Session) :
    (refreshLineS cfg s).previousKey = s.previousKey := by
  simp only [refreshLineS]; split <;> rfl

@[simp] theorem refreshLineS_refreshes (cfg : Config) (s : Session) :
    (refreshLineS cfg s).refreshes = s.refreshes + 1 := by
  simp only [refreshLineS]; split <;> rfl

@[simp] theorem moveCursorS_line (cfg : Config) (s : Session) (d : Delta) :
    (moveCursorS cfg s d).line = s.line := by
  unfold moveCursorS Session.withLC Session.lc moveCursorLC
  cases d <;> dsimp only <;> split <;> simp

@[simp] theorem moveCursorS_history (cfg : Config) (s : Session) (d : Delta) :
    (moveCursorS cfg s d).history = s.history := by
  unfold moveCursorS Session.withLC Session.lc moveCursorLC
  cases d <;> dsimp only <;> split <;> simp

@[simp] theorem moveCursorS_historyIndex (cfg : Config) (s : Session) (d : Delta) :
    (moveCursorS cfg s d).historyIndex = s.historyIndex := by
  unfold moveCursorS Session.withLC Session.lc moveCursorLC
  cases d <;> dsimp only <;> split <;> simp

@[simp] theorem moveCursorS_emitted (cfg : Config) (s : Session) (d : Delta) :
    (moveCursorS cfg s d).emitted = s.emitted := by
  unfold moveCursorS Session.withLC Session.lc moveCursorLC
  cases d <;> dsimp only <;> split <;> simp

@[simp] theorem moveCursorS_closed (cfg : Config) (s : Session) (d : Delta) :
    (moveCursorS cfg s d).closed = s.closed := by
  unfold moveCursorS Session.withLC Session.lc moveCursorLC
  cases d <;> dsimp only <;> split <;> simp

@[simp] theorem moveCursorS_paused (cfg : Config) (s : Session) (d : Delta) :
    (moveCursorS cfg s d).paused = s.paused := by
  unfold moveCursorS Session.withLC Session.lc moveCursorLC
  cases d <;> dsimp only <;> split <;> simp

@[simp] theorem moveCursorS_sawReturnAt (cfg : Config) (s : Session) (d : Delta) :
    (moveCursorS cfg s d).sawReturnAt = s.sawReturnAt := by
  unfold moveCursorS Session.withLC Session.lc moveCursorLC
  cases d <;> dsimp only <;> split <;> simp

@[simp] theorem moveCursorS_posInf_cursor (cfg : Config) (s : Session) :
    (moveCursorS cfg s .posInf).cursor = (s.line.length : Int) := by
  unfold moveCursorS Session.withLC Session.lc moveCursorLC
  dsimp only; split <;> simp

@[simp] theorem clearLineS_line (cfg : Config) (s : Session) :
    (clearLineS cfg s).line = [] := rfl

@[simp] theorem clearLineS_cursor (cfg : Config) (s : Session) :
    (clearLineS cfg s).cursor = 0 := rfl

@[simp] theorem clearLineS_history (cfg : Config) (s : Session) :
    (clearLineS cfg s).history = s.history := by
  unfold clearLineS; simp

@[simp] theorem clearLineS_historyIndex (cfg : Config) (s : Session) :
    (clearLineS cfg s).historyIndex = s.historyIndex := by
  unfold clearLineS; simp

@[simp] theorem clearLineS_emitted (cfg : Config) (s : Session) :
    (clearLineS cfg s).emitted = s.emitted := by
  unfold clearLineS; simp

@[simp] theorem clearLineS_sawReturnAt (cfg : Config) (s : Session) :
    (clearLineS cfg s).sawReturnAt = s.sawReturnAt := by
  unfold clearLineS; simp

/-! ## C10: the history cursor invariant -/

theorem addHistoryS_index_cases (cfg : Config) (s : Session) :
    ((addHistoryS cfg s).1.historyIndex = s.historyIndex ∧
      (addHistoryS cfg s).1.history = s.history) ∨
    (addHistoryS cfg s).1.historyIndex = -1 := by
  unfold addHistoryS
  split_ifs <;> simp

theorem applyHistOp_preserves_index (cfg : Config) (s : Session) (op : HistOp)
    (h1 : -1 ≤ s.historyIndex) (h2 : s.historyIndex < (s.history.length : Int)) :
    -1 ≤ (applyHistOp cfg s op).historyIndex ∧
      (applyHistOp cfg s op).historyIndex < ((applyHistOp cfg s op).history.length : Int) := by
  cases op with
  | add l =>
    have := addHistoryS_index_cases cfg { s with line := l }
    simp only [applyHistOp, commitLine]
    rcases this with ⟨hidx, hhist⟩ | hidx <;> rw [hidx]
    · rw [hhist]; exact ⟨h1, h2⟩
    · refine ⟨le_rfl, ?_⟩
      have : (0 : Int) ≤ ((addHistoryS cfg { s with line := l }).1.history.length : Int) :=
        Int.natCast_nonneg _
      omega
  | prev =>
    simp only [applyHistOp, historyPrevS]
    split
    · simp only [refreshLineS_historyIndex, refreshLineS_history]
      constructor <;> omega
    · exact ⟨h1, h2⟩
  | next =>
    simp only [applyHistOp, historyNextS]
    split
    · simp only [refreshLineS_historyIndex, refreshLineS_history]
      constructor <;> omega
    · split
      · simp only [refreshLineS_historyIndex, refreshLineS_history]
        have : (0 : Int) ≤ (s.history.length : Int) := Int.natCast_nonneg _
        constructor <;> omega
      · exact ⟨h1, h2⟩

theorem applyHistOps_preserves_index (cfg : Config) (ops : List HistOp) (s : Session)
    (h1 : -1 ≤ s.historyIndex) (h2 : s.historyIndex < (s.history.length : Int)) :
    -1 ≤ (ops.foldl (applyHistOp cfg) s).historyIndex ∧
      (ops.foldl (applyHistOp cfg) s).historyIndex <
        ((ops.foldl (applyHistOp cfg) s).history.length : Int) := by
  induction ops generalizing s with
  | nil => exact ⟨h1, h2⟩
  | cons op rest ih =>
    have hstep := applyHistOp_preserves_index cfg s op h1 h2
    simpa using ih (applyHistOp cfg s op) hstep.1 hstep.2

/-- C10: for every sequence of `addHistory`, `historyPrev` and
`historyNext` operations applied to a session whose history cursor is in
range, `-1 ≤ historyIndex < history.length` holds afterwards, and
`historyNext` while `historyIndex = -1` (not browsing history) leaves the
line, the cursor and `historyIndex` unchanged — it leaves the whole
session unchanged. -/
theorem c10_history_index_invariant (cfg : Config) (ops : List HistOp) (s : Session)
    (h1 : -1 ≤ s.historyIndex) (h2 : s.historyIndex < (s.history.length : Int)) :
    (-1 ≤ (ops.foldl (applyHistOp cfg) s).historyIndex ∧
      (ops.foldl (applyHistOp cfg) s).historyIndex <
        ((ops.foldl (applyHistOp cfg) s).history.length : Int)) ∧
    ∀ s2 : Session, s2.historyIndex = -1 →
      (historyNextS cfg s2).line = s2.line ∧ (historyNextS cfg s2).cursor = s2.cursor ∧
        (historyNextS cfg s2).historyIndex = s2.historyIndex := by
  refine ⟨applyHistOps_preserves_index cfg ops s h1 h2, ?_⟩
  intro s2 hidx
  have : historyNextS cfg s2 = s2 := by
    unfold historyNextS
    rw [if_neg (by omega), if_neg (by omega)]
  rw [this]
  exact ⟨rfl, rfl, rfl⟩

/-- Concrete operation list for the C10 witness. -/
def c10Ops : List HistOp := [.add (strCodes "x"), .prev, .next]

/-- Witness for C10 at a concrete session and operation list. -/
theorem c10_witness :
    (-1 ≤ ({ } : Session).historyIndex ∧
      ({ } : Session).historyIndex < (({ } : Session).history.length : Int)) ∧
    ((-1 ≤ (c10Ops.foldl (applyHistOp { }) { }).historyIndex ∧
        (c10Ops.foldl (applyHistOp { }) { }).historyIndex <
          ((c10Ops.foldl (applyHistOp { }) { }).history.length : Int)) ∧
      ∀ s2 : Session, s2.historyIndex = -1 →
        (historyNextS { } s2).line = s2.line ∧ (historyNextS { } s2).cursor = s2.cursor ∧
          (historyNextS { } s2).historyIndex = s2.historyIndex) :=
  ⟨⟨by decide, by decide⟩,
    c10_history_index_invariant { } c10Ops { } (by decide) (by decide)⟩

/-! ## C4: commit / navigatePrev round trip -/

theorem addHistoryS_fresh (cfg : Config) (s : Session) (hne : s.line ≠ [])
    (htrim : jsTrim s.line ≠ []) (hhs : 0 < cfg.historySize)
    (hdiff : s.history = [] ∨ s.history.headD [] ≠ s.line) :
    ∃ t, (addHistoryS cfg s).1.history = s.line :: t ∧
      (addHistoryS cfg s).1.historyIndex = -1 ∧
      (addHistoryS cfg s).1.line = s.line := by
  unfold addHistoryS
  rw [if_neg (by simpa using hne), if_neg (by omega), if_neg (by simpa using htrim)]
  have hcond : s.history.length = 0 ∨ s.history.headD [] ≠ s.line := by
    rcases hdiff with h | h
    · left; simp [h]
    · right; exact h
  rw [if_pos hcond]
  set hist0 := if cfg.removeHistoryDuplicates then removeFirst s.line s.history else s.history with hh0
  dsimp only
  split
  · next hlong =>
    cases h0 : hist0 with
    | nil => rw [h0] at hlong; simp at hlong; omega
    | cons c t => exact ⟨(c :: t).dropLast, by simp [List.dropLast], rfl, rfl⟩
  · exact ⟨hist0, rfl, rfl, rfl⟩

/-- C4: for every non-empty, non-whitespace-only line that differs from
the current most-recent history entry (and with history enabled,
`historySize > 0`), committing it through `addHistory` and then
immediately navigating with `historyPrev` loads exactly that line into
the buffer with the cursor at its end. -/
theorem c4_commit_prev_round_trip (cfg : Config) (s : Session) (hne : s.line ≠ [])
    (htrim : jsTrim s.line ≠ []) (hhs : 0 < cfg.historySize)
    (hdiff : s.history = [] ∨ s.history.headD [] ≠ s.line) :
    (historyPrevS cfg (addHistoryS cfg s).1).line = s.line ∧
      (historyPrevS cfg (addHistoryS cfg s).1).cursor = (s.line.length : Int) := by
  obtain ⟨t, hhist, hidx, _⟩ := addHistoryS_fresh cfg s hne htrim hhs hdiff
  unfold historyPrevS
  rw [hhist, hidx]
  rw [if_pos (by simp)]
  have hget : jsHistGet (s.line :: t) (-1 + 1) = s.line := by norm_num [jsHistGet]
  dsimp only
  rw [hget]
  simp

/-- Witness for C4: committing `"hi"` into a fresh session and navigating
back yields `"hi"` with the cursor at 2. -/
theorem c4_witness :
    (strCodes "hi" ≠ ([] : JStr)) ∧ jsTrim (strCodes "hi") ≠ [] ∧
    (historyPrevS { } (addHistoryS { } { line := strCodes "hi" }).1).line = strCodes "hi" ∧
      (historyPrevS { } (addHistoryS { } { line := strCodes "hi" }).1).cursor =
        ((strCodes "hi").length : Int) := by
  refine ⟨by decide, by decide, ?_⟩
  exact c4_commit_prev_round_trip { } { line := strCodes "hi" } (by decide) (by decide)
    (by decide) (Or.inl rfl)

/-! ## C9: Ctrl-D semantics -/

/-- One logical character at code-unit position `c`: two units when a
surrogate pair starts there, otherwise one unit. -/
def logicalCharLen (l : JStr) (c : Nat) : Nat :=
  match l.get? c, l.get? (c + 1) with
  | some u1, some u2 => if isHighSurrogate u1 && isLowSurrogate u2 then 2 else 1
  | _, _ => 1

theorem charLengthAt_eq_logical (l : JStr) (c : Nat) (hc : c < l.length)
    (hwf : ∀ u ∈ l, u < kUTF16SurrogateThreshold) :
    charLengthAt l (c : Int) = logicalCharLen l c := by
  have hcp : codePointAtI l (c : Int) = codePointAt l c := by
    unfold codePointAtI
    rw [if_neg (by omega), Int.toNat_ofNat]
  unfold charLengthAt logicalCharLen
  rw [if_neg (by omega), hcp]
  unfold codePointAt
  cases hg1 : l.get? c with
  | none => rw [List.get?_eq_none] at hg1; omega
  | some u1 =>
    have hu1 : u1 < kUTF16SurrogateThreshold := hwf u1 (List.get?_mem hg1)
    cases hg2 : l.get? (c + 1) with
    | none =>
      dsimp only
      cases hhi : isHighSurrogate u1 with
      | false => rw [if_neg Bool.false_ne_true, Option.getD_some, if_neg (by omega)]
      | true => rw [if_pos rfl, Option.getD_some, if_neg (by omega)]
    | some u2 =>
      dsimp only
      cases hhi : isHighSurrogate u1 with
      | false =>
        rw [if_neg Bool.false_ne_true, Option.getD_some, if_neg (by omega),
          Bool.false_and]
        rfl
      | true =>
        cases hlo : isLowSurrogate u2 with
        | false =>
          rw [if_pos rfl, if_neg Bool.false_ne_true, Option.getD_some,
            if_neg (by omega), Bool.true_and]
          rfl
        | true =>
          have hcomb : kUTF16SurrogateThreshold ≤ combineSurrogates u1 u2 := by
            show (65536 : Nat) ≤ 65536 + (u1 - 55296) * 1024 + (u2 - 56320)
            omega
          rw [if_pos rfl, if_pos rfl, Option.getD_some, if_pos hcomb,
            Bool.true_and]
          rfl

/-- The Ctrl-D key event. -/
def ctrlD : Key := { name := .d, ctrl := true }

theorem ttyWrite_ctrlD_eq (cfg : Config) (now : Nat) (cr : CompleterResult) (s : Session) :
    ttyWrite cfg now none ctrlD cr s =
      some (if s.cursor = 0 ∧ s.line.length = 0 then
              closeS { s with previousKey := some KeyName.d }
            else if s.cursor < (s.line.length : Int) then
              deleteRightS cfg { s with previousKey := some KeyName.d }
            else { s with previousKey := some KeyName.d }) := rfl

theorem closeS_of_open (s : Session) (h : s.closed = false) :
    closeS s = { s with paused := true, closed := true } := by
  unfold closeS
  rw [if_neg (by simp [h])]

theorem deleteRightS_cursor (cfg : Config) (s : Session) :
    (deleteRightS cfg s).cursor = s.cursor := by
  unfold deleteRightS deleteRightLC Session.withLC Session.lc
  dsimp only
  split
  · rw [refreshLineS_cursor]
  · rfl

theorem deleteRightS_closed (cfg : Config) (s : Session) :
    (deleteRightS cfg s).closed = s.closed := by
  unfold deleteRightS deleteRightLC Session.withLC Session.lc
  dsimp only
  split
  · rw [refreshLineS_closed]
  · rfl

theorem deleteRightS_line (cfg : Config) (s : Session)
    (hlt : s.cursor < (s.line.length : Int)) :
    (deleteRightS cfg s).line = jsSlice s.line 0 s.cursor ++
      jsSlice s.line (s.cursor + (charLengthAt s.line s.cursor : Int))
        (s.line.length : Int) := by
  unfold deleteRightS deleteRightLC Session.withLC Session.lc
  dsimp only
  rw [if_pos hlt, refreshLineS_line, if_pos hlt]

/-- C9: on a Ctrl-D key event in an open session with an in-range cursor,
the session is closed if and only if the line buffer is empty; when the
line is non-empty the logical character right of the cursor is deleted
instead (a no-op when the cursor is already at the end of the line) and
the session stays open. -/
theorem c9_ctrl_d (cfg : Config) (now : Nat) (s s' : Session)
    (hclosed : s.closed = false) (h0 : 0 ≤ s.cursor)
    (h1 : s.cursor ≤ (s.line.length : Int))
    (hwf : ∀ u ∈ s.line, u < kUTF16SurrogateThreshold)
    (h : ttyWrite cfg now none ctrlD (.ok [] []) s = some s') :
    (s'.closed = true ↔ s.line = []) ∧
      (s.line ≠ [] →
        s'.line = s.line.take s.cursor.toNat ++
          s.line.drop (s.cursor.toNat + logicalCharLen s.line s.cursor.toNat) ∧
        s'.cursor = s.cursor ∧ s'.closed = false) := by
  rw [ttyWrite_ctrlD_eq] at h
  injection h with h
  subst h
  by_cases hempty : s.cursor = 0 ∧ s.line.length = 0
  · rw [if_pos hempty]
    have hline : s.line = [] := List.length_eq_zero.mp hempty.2
    rw [closeS_of_open _ (by simpa using hclosed)]
    exact ⟨by simpa using hline, fun hne => absurd hline hne⟩
  · rw [if_neg hempty]
    have hne : s.line ≠ [] := by
      intro hnil
      apply hempty
      refine ⟨?_, by simp [hnil]⟩
      rw [hnil] at h1
      simp at h1
      omega
    by_cases hlt : s.cursor < (s.line.length : Int)
    · rw [if_pos hlt]
      have hcl : (deleteRightS cfg { s with previousKey := some KeyName.d }).closed =
          false := by rw [deleteRightS_closed]; exact hclosed
      refine ⟨by simp [hcl, hne], fun _ => ⟨?_, by rw [deleteRightS_cursor], hcl⟩⟩
      rw [deleteRightS_line cfg _ (by simpa using hlt)]
      dsimp only
      have hc : (s.cursor : Int) = ((s.cursor.toNat : Nat) : Int) := by omega
      have hlen : s.cursor.toNat < s.line.length := by omega
      have hcla := charLengthAt_eq_logical s.line s.cursor.toNat hlen hwf
      rw [hc, hcla, jsSlice_zero_ofNat]
      have hcast : ((s.cursor.toNat : Int) + (logicalCharLen s.line s.cursor.toNat : Int)) =
          (((s.cursor.toNat + logicalCharLen s.line s.cursor.toNat : Nat)) : Int) := by
        push_cast; ring
      rw [hcast, jsSlice_ofNat_len]
      simp only [Int.toNat_ofNat]
    · rw [if_neg hlt]
      have hc : s.cursor.toNat = s.line.length := by omega
      refine ⟨by simp [hclosed, hne], fun _ => ⟨?_, rfl, hclosed⟩⟩
      dsimp only
      rw [hc, List.take_of_length_le le_rfl, List.drop_of_length_le (by omega)]
      simp

/-- Witness for C9 at a concrete open session: line `"ab"` with the
cursor at 0, where Ctrl-D keeps the session open and deletes `a`. -/
theorem c9_witness :
    ((({ line := strCodes "ab" } : Session)).closed = false) ∧
    ((((ttyWrite { } 5 none ctrlD (.ok [] [])
          { line := strCodes "ab" }).getD { }).closed = true ↔ strCodes "ab" = []) ∧
      (strCodes "ab" ≠ [] →
        ((ttyWrite { } 5 none ctrlD (.ok [] []) { line := strCodes "ab" }).getD { }).line =
          (strCodes "ab").take (0 : Int).toNat ++
            (strCodes "ab").drop ((0 : Int).toNat +
              logicalCharLen (strCodes "ab") (0 : Int).toNat) ∧
        ((ttyWrite { } 5 none ctrlD (.ok [] [])
          { line := strCodes "ab" }).getD { }).cursor = 0 ∧
        ((ttyWrite { } 5 none ctrlD (.ok [] [])
          { line := strCodes "ab" }).getD { }).closed = false)) :=
  ⟨rfl, c9_ctrl_d { } 5 { line := strCodes "ab" }
    ((ttyWrite { } 5 none ctrlD (.ok [] []) { line := strCodes "ab" }).getD { })
    rfl (by decide) (by decide) (by decide) (by decide)⟩

/-! ## C3: carriage-return coalescing -/

theorem addHistoryS_emitted (cfg : Config) (s : Session) :
    (addHistoryS cfg s).1.emitted = s.emitted := by
  unfold addHistoryS; split_ifs <;> simp

theorem addHistoryS_sawReturnAt (cfg : Config) (s : Session) :
    (addHistoryS cfg s).1.sawReturnAt = s.sawReturnAt := by
  unfold addHistoryS; split_ifs <;> simp

theorem addHistoryS_line (cfg : Config) (s : Session) :
    (addHistoryS cfg s).1.line = s.line := by
  unfold addHistoryS; split_ifs <;> simp

theorem addHistoryS_of_empty (cfg : Config) (s : Session) (h : s.line = []) :
    addHistoryS cfg s = (s, []) := by
  unfold addHistoryS
  rw [if_pos (by simp [h])]

theorem lineCommitS_emitted (cfg : Config) (s : Session) :
    (lineCommitS cfg s).emitted = s.emitted ++ [(addHistoryS cfg s).2] := by
  unfold lineCommitS
  dsimp only
  rw [clearLineS_emitted, addHistoryS_emitted]

theorem lineCommitS_line (cfg : Config) (s : Session) :
    (lineCommitS cfg s).line = [] := by
  unfold lineCommitS
  dsimp only
  rw [clearLineS_line]

theorem lineCommitS_sawReturnAt (cfg : Config) (s : Session) :
    (lineCommitS cfg s).sawReturnAt = s.sawReturnAt := by
  unfold lineCommitS
  dsimp only
  rw [clearLineS_sawReturnAt, addHistoryS_sawReturnAt]

theorem ttyWrite_retKey_eq (cfg : Config) (now : Nat) (seq : Option JStr)
    (cr : CompleterResult) (s : Session) :
    ttyWrite cfg now seq { name := .retKey } cr s =
      some (lineCommitS cfg
        { s with previousKey := some KeyName.retKey, sawReturnAt := now }) := by
  unfold ttyWrite
  dsimp only
  rw [if_neg (by decide), if_neg (by decide), if_neg (by decide), if_neg (by decide)]
  split <;> rfl

theorem ttyWrite_enter_eq (cfg : Config) (now : Nat) (seq : Option JStr)
    (cr : CompleterResult) (s : Session) :
    ttyWrite cfg now seq { name := .enter } cr s =
      some (if s.sawReturnAt = 0 ∨ cfg.crlfDelay < now - s.sawReturnAt then
              { lineCommitS cfg { s with previousKey := some KeyName.enter } with
                  sawReturnAt := 0 }
            else { s with previousKey := some KeyName.enter, sawReturnAt := 0 }) := by
  unfold ttyWrite
  dsimp only
  rw [if_neg (by decide), if_neg (by decide), if_neg (by decide), if_neg (by decide)]
  rw [if_neg (show ¬(s.sawReturnAt ≠ 0 ∧ KeyName.enter ≠ KeyName.enter) by simp)]
  dsimp only
  split_ifs <;> rfl

/-- C3: starting from any session, a `'return'` (`\r`) key event at time
`t > 0` followed by an `'enter'` (`\n`) key event within the crlf window
(`dt ≤ crlfDelay`, default `kMincrlfDelay = 100` ms) produces exactly one
line commit; when the `'enter'` event arrives after the window
(`crlfDelay < dt`, e.g. 150 ms later with the default window), two
commits occur and the second commits the empty line. -/
theorem c3_crlf_coalescing (cfg : Config) (s : Session) (t dt : Nat) (ht : 0 < t) :
    (dt ≤ cfg.crlfDelay →
      ∃ s', processKeys cfg s [(t, { name := .retKey }), (t + dt, { name := .enter })] =
          some s' ∧ s'.emitted.length = s.emitted.length + 1) ∧
    (cfg.crlfDelay < dt →
      ∃ s', processKeys cfg s [(t, { name := .retKey }), (t + dt, { name := .enter })] =
          some s' ∧ s'.emitted.length = s.emitted.length + 2 ∧
          s'.emitted.getLast? = some []) := by
  have hproc : processKeys cfg s [(t, { name := .retKey }), (t + dt, { name := .enter })] =
      (ttyWrite cfg t none { name := .retKey } (.ok [] []) s).bind
        (fun s1 => ttyWrite cfg (t + dt) none { name := .enter } (.ok [] []) s1) := by
    unfold processKeys
    simp only [List.foldlM_cons, List.foldlM_nil]
    rfl
  set s1 : Session :=
    lineCommitS cfg { s with previousKey := some KeyName.retKey, sawReturnAt := t } with hs1
  have h1 : ttyWrite cfg t none { name := .retKey } (.ok [] []) s = some s1 :=
    ttyWrite_retKey_eq cfg t none (.ok [] []) s
  have hs1saw : s1.sawReturnAt = t := by rw [hs1, lineCommitS_sawReturnAt]
  have hs1line : s1.line = [] := by rw [hs1, lineCommitS_line]
  have hs1em : s1.emitted.length = s.emitted.length + 1 := by
    rw [hs1, lineCommitS_emitted]; simp
  have h2 := ttyWrite_enter_eq cfg (t + dt) none (.ok [] []) s1
  constructor
  · intro hdt
    refine ⟨_, by rw [hproc, h1, Option.some_bind, h2], ?_⟩
    rw [if_neg (by rw [hs1saw]; omega)]
    simpa using hs1em
  · intro hdt
    refine ⟨_, by rw [hproc, h1, Option.some_bind, h2], ?_⟩
    rw [if_pos (by rw [hs1saw]; right; omega)]
    have hemp : addHistoryS cfg { s1 with previousKey := some KeyName.enter } =
        ({ s1 with previousKey := some KeyName.enter }, []) :=
      addHistoryS_of_empty cfg _ (by simpa using hs1line)
    constructor
    · simp only [Session.mk.injEq]
      rw [lineCommitS_emitted, hemp]
      simp [hs1em]
    · simp only
      rw [lineCommitS_emitted, hemp]
      simp

/-- Witness for C3: concrete times 1000/1100 (inside the window) and
1000/1150 (outside), default configuration. -/
theorem c3_witness :
    ((100 ≤ ({ } : Config).crlfDelay →
      ∃ s', processKeys { } { } [(1000, { name := .retKey }), (1000 + 100, { name := .enter })] =
          some s' ∧ s'.emitted.length = ({ } : Session).emitted.length + 1) ∧
    (({ } : Config).crlfDelay < 150 →
      ∃ s', processKeys { } { } [(1000, { name := .retKey }), (1000 + 150, { name := .enter })] =
          some s' ∧ s'.emitted.length = ({ } : Session).emitted.length + 2 ∧
          s'.emitted.getLast? = some [])) :=
  ⟨(c3_crlf_coalescing { } { } 1000 100 (by decide)).1,
   (c3_crlf_coalescing { } { } 1000 150 (by decide)).2⟩

/-! ## C5: completion outcomes -/

theorem foldl_preserve {σ α β : Type} (p : σ → β) (f : σ → α → σ)
    (hf : ∀ s a, p (f s a) = p s) (l : List α) (s : σ) : p (l.foldl f s) = p s := by
  induction l generalizing s with
  | nil => rfl
  | cons a l ih => rw [List.foldl_cons, ih, hf]

theorem resumeS_pauseS (s : Session) : resumeS (pauseS s) = { s with paused := false } := by
  unfold pauseS resumeS
  by_cases h : s.paused = true
  · rw [if_pos h, if_pos h]
  · rw [if_neg h]
    rw [if_pos rfl]

/-- Projections preserved by every `writeToOutput`-only operation: the
four observables `paused`, `closed`, `line`, `cursor`, `refreshes`,
`emitted` of `handleGroup` equal those of its input. -/
theorem handleGroupS_preserve {β : Type} (p : Session → β)
    (hw : ∀ s b, p (writeOut s b) = p s) (s : Session) (g : List JStr)
    (w m : Nat) : p (handleGroupS s g w m) = p s := by
  unfold handleGroupS
  split
  · rfl
  · rw [hw]
    refine foldl_preserve p _ (fun s row => ?_) _ s
    rw [hw]
    refine foldl_preserve p _ (fun s col => ?_) _ s
    dsimp only
    split
    · rfl
    · split
      · exact (foldl_preserve p _ (fun s b => hw s b) _ _).trans (hw _ _)
      · exact hw _ _

theorem displayCompletionsS_preserve {β : Type} (p : Session → β)
    (hw : ∀ s b, p (writeOut s b) = p s) (cfg : Config) (s : Session)
    (cs : List JStr) : p (displayCompletionsS cfg s cs) = p s := by
  unfold displayCompletionsS
  dsimp only
  rw [handleGroupS_preserve p hw]
  have := foldl_preserve (fun acc : Session × List JStr => p acc.1)
    (fun (acc : Session × List JStr) c =>
      if c = [] then (handleGroupS acc.1 acc.2 ((jsReduceLongest cs).length + 2)
        (if cfg.columns / ((jsReduceLongest cs).length + 2) = 0 then 1
         else cfg.columns / ((jsReduceLongest cs).length + 2)), [])
      else (acc.1, acc.2 ++ [c]))
    (fun acc c => by
      dsimp only
      split
      · exact handleGroupS_preserve p hw _ _ _ _
      · rfl)
    cs (writeOut s (strCodes "\r\n"), [])
  rw [this]
  exact hw s _

theorem moveCursorS_refreshes_ge (cfg : Config) (s : Session) (d : Delta) :
    s.refreshes ≤ (moveCursorS cfg s d).refreshes := by
  unfold moveCursorS
  dsimp only
  split
  · exact le_rfl
  · rw [refreshLineS_refreshes]
    simp [Session.withLC]

theorem insertStringS_refreshes_ge (cfg : Config) (s : Session) (x : JStr) :
    s.refreshes ≤ (insertStringS cfg s x).refreshes := by
  unfold insertStringS
  split
  · rw [refreshLineS_refreshes]; simp [Session.withLC]
  · dsimp only
    split
    · rw [refreshLineS_refreshes]; simp [Session.withLC]
    · calc s.refreshes = (writeOut (s.withLC (insertStringLC s.lc x)) x).refreshes := by
            simp [Session.withLC]
        _ ≤ _ := moveCursorS_refreshes_ge cfg _ _

theorem insertStringS_paused (cfg : Config) (s : Session) (x : JStr) :
    (insertStringS cfg s x).paused = s.paused := by
  unfold insertStringS
  split
  · rw [refreshLineS_paused]; simp [Session.withLC]
  · dsimp only
    split
    · rw [refreshLineS_paused]; simp [Session.withLC]
    · rw [moveCursorS_paused]; simp [Session.withLC]

/-- C5 (amended): for every completion outcome, input processing is
resumed (`paused = false` afterwards); a redraw is forced exactly when the
completer succeeds with a nonempty candidate list; on empty candidate
lists no redraw happens; on completer error the formatted error is passed
to the output writer, no redraw happens, and the session continues with
the line buffer (and open/closed state) unchanged. -/
theorem c5_completion_outcomes (cfg : Config) (s : Session) (lastTab : Bool)
    (cr : CompleterResult) :
    (tabCompleteS cfg s lastTab cr).paused = false ∧
    (∀ e, cr = .err e →
      (tabCompleteS cfg s lastTab cr).refreshes = s.refreshes ∧
      (tabCompleteS cfg s lastTab cr).closed = s.closed ∧
      (tabCompleteS cfg s lastTab cr).line = s.line ∧
      (tabCompleteS cfg s lastTab cr).cursor = s.cursor ∧
      (tabCompleteS cfg s lastTab cr).output =
        s.output ++ [strCodes "tab completion error " ++ e]) ∧
    (∀ co, cr = .ok [] co →
      (tabCompleteS cfg s lastTab cr).refreshes = s.refreshes) ∧
    (∀ cs co, cr = .ok cs co → cs ≠ [] →
      s.refreshes < (tabCompleteS cfg s lastTab cr).refreshes) := by
  unfold tabCompleteS
  dsimp only
  rw [resumeS_pauseS]
  have hp : ∀ (cs : List JStr) (s2 : Session),
      (if lastTab = true then displayCompletionsS cfg s2 cs else s2).paused = s2.paused := by
    intro cs s2; split
    · exact displayCompletionsS_preserve (fun s => s.paused) (by simp) cfg s2 cs
    · rfl
  have hr : ∀ (cs : List JStr) (s2 : Session),
      (if lastTab = true then displayCompletionsS cfg s2 cs else s2).refreshes =
        s2.refreshes := by
    intro cs s2; split
    · exact displayCompletionsS_preserve (fun s => s.refreshes) (by simp) cfg s2 cs
    · rfl
  refine ⟨?_, ?_, ?_, ?_⟩
  · cases cr with
    | err e => simp
    | ok cs co =>
      dsimp only
      split
      · rw [refreshLineS_paused]
        split
        · rw [insertStringS_paused, hp]
        · rw [hp]
      · simp
  · intro e he
    subst he
    dsimp only
    refine ⟨?_, ?_, ?_, ?_, ?_⟩ <;> simp [writeOut]
  · intro co hco
    subst hco
    dsimp only
    rw [if_neg (by simp)]
  · intro cs co hco hne
    subst hco
    dsimp only
    rw [if_pos (by simpa using hne)]
    rw [refreshLineS_refreshes]
    have h2 : ∀ s2 : Session,
        s2.refreshes ≤ ((if (co.length <
            (commonPrefix (cs.filter (fun e => e ≠ []))).length) then
          insertStringS cfg s2 ((commonPrefix (cs.filter (fun e => e ≠ []))).drop co.length)
          else s2)).refreshes := by
      intro s2; split
      · exact insertStringS_refreshes_ge cfg s2 _
      · exact le_rfl
    have h3 := h2 (if lastTab = true then displayCompletionsS cfg { s with paused := false } cs
      else { s with paused := false })
    have h4 : s.refreshes ≤ (if lastTab = true then
        displayCompletionsS cfg { s with paused := false } cs
        else ({ s with paused := false } : Session)).refreshes := by
      rw [hr]
    exact Nat.lt_succ_of_le (le_trans h4 h3)

/-- Witness for C5 at a concrete session and a concrete completer
error. -/
theorem c5_witness :
    (tabCompleteS { } { } false (.err (strCodes "x"))).paused = false ∧
    (tabCompleteS { } { } false (.err (strCodes "x"))).output =
      ({ } : Session).output ++ [strCodes "tab completion error " ++ strCodes "x"] :=
  ⟨(c5_completion_outcomes { } { } false (.err (strCodes "x"))).1,
   ((c5_completion_outcomes { } { } false (.err (strCodes "x"))).2.1 (strCodes "x")
     rfl).2.2.2.2⟩

/-- Counterexample to C5 as stated: on a completer error the claim
demands a forced redraw, but `tabComplete`'s error path returns right
after reporting the error — the redraw counter does not move (input is
resumed, so the failing part is exactly the redraw). -/
theorem c5_counterexample :
    (tabCompleteS { } { } false (.err (strCodes "boom"))).paused = false ∧
    ¬ (({ } : Session).refreshes <
        (tabCompleteS { } { } false (.err (strCodes "boom"))).refreshes) := by
  decide

/-! ## C2: history capacity -/

theorem removeFirst_of_not_mem (x : JStr) (l : List JStr) (h : x ∉ l) :
    removeFirst x l = l := by
  induction l with
  | nil => rfl
  | cons a r ih =>
    unfold removeFirst
    rw [if_neg (by intro he; exact h (he ▸ List.mem_cons_self a r)),
      ih (fun hm => h (List.mem_cons_of_mem a hm))]

theorem removeFirst_length_le (x : JStr) (l : List JStr) :
    (removeFirst x l).length ≤ l.length := by
  induction l with
  | nil => exact le_rfl
  | cons a r ih =>
    unfold removeFirst
    split
    · simp
    · simpa using Nat.succ_le_succ ih

theorem not_allSpace_ne_nil (l : JStr) (h : ¬ l.all isSpaceCu) : l ≠ [] := by
  intro he
  exact h (he ▸ rfl)

theorem jsTrim_ne_nil (l : JStr) (h : ¬ l.all isSpaceCu) : jsTrim l ≠ [] := by
  intro he
  apply h
  unfold jsTrim at he
  rw [List.reverse_eq_nil_iff, List.dropWhile_eq_nil_iff] at he
  rw [List.all_eq_true]
  intro x hx
  rcases List.mem_append.mp ((List.takeWhile_append_dropWhile isSpaceCu l) ▸ hx) with h1 | h1
  · exact List.mem_takeWhile_imp h1
  · exact he x (List.mem_reverse.mpr h1)

theorem addHistoryS_fresh_take (cfg : Config) (s : Session)
    (hsp : ¬ s.line.all isSpaceCu) (hhs : 0 < cfg.historySize)
    (hmem : s.line ∉ s.history) (hlen : s.history.length ≤ cfg.historySize) :
    (addHistoryS cfg s).1.history = (s.line :: s.history).take cfg.historySize := by
  unfold addHistoryS
  rw [if_neg (by simpa using not_allSpace_ne_nil s.line hsp), if_neg (by omega),
    if_neg (by simpa using jsTrim_ne_nil s.line hsp)]
  have hhead : s.history.length = 0 ∨ s.history.headD [] ≠ s.line := by
    cases hh : s.history with
    | nil => left; simp
    | cons b r =>
      right
      simp only [List.headD_cons]
      intro he
      exact hmem (he ▸ (hh ▸ List.mem_cons_self b r))
  rw [if_pos hhead]
  have h0 : (if cfg.removeHistoryDuplicates then removeFirst s.line s.history
      else s.history) = s.history := by
    split
    · exact removeFirst_of_not_mem s.line s.history hmem
    · rfl
  rw [h0]
  dsimp only
  split
  · next hlong =>
    simp only [List.length_cons] at hlong
    have : s.history.length = cfg.historySize := by omega
    rw [List.dropLast_eq_take]
    simp [this]
  · next hshort =>
    simp only [List.length_cons] at hshort
    rw [List.take_of_length_le (by simp; omega)]

theorem addHistoryS_capacity (cfg : Config) (s : Session)
    (h : s.history.length ≤ cfg.historySize) :
    (addHistoryS cfg s).1.history.length ≤ cfg.historySize := by
  unfold addHistoryS
  split
  · exact h
  · split
    · exact h
    · split
      · exact h
      · dsimp only
        split
        · have hr : (if cfg.removeHistoryDuplicates then removeFirst s.line s.history
              else s.history).length ≤ s.history.length := by
            split
            · exact removeFirst_length_le _ _
            · exact le_rfl
          set hist0 := if cfg.removeHistoryDuplicates = true then removeFirst s.line s.history
            else s.history with hh0
          dsimp only
          split
          · next hlong =>
            simp only [List.length_dropLast, List.length_cons]
            omega
          · next hshort =>
            simp only [List.length_cons] at hshort ⊢
            omega
        · exact h

theorem commitAll_history_take (cfg : Config) (ls : List JStr) (hnd : ls.Nodup)
    (hsp : ∀ l ∈ ls, ¬ l.all isSpaceCu) (hhs : 0 < cfg.historySize) :
    (commitAll cfg { } ls).history = ls.reverse.take cfg.historySize := by
  induction ls using List.reverseRecOn with
  | nil => simp [commitAll]
  | append_singleton ls' a ih =>
    have hnd' : ls'.Nodup := (List.nodup_append.mp hnd).1
    have hdisj := (List.nodup_append.mp hnd).2.2
    have hnotmem : a ∉ ls' := fun hm => hdisj hm (List.mem_singleton_self a)
    have ihh := ih hnd' (fun l hl => hsp l (List.mem_append_left _ hl))
    unfold commitAll at ihh ⊢
    rw [List.foldl_append, List.foldl_cons, List.foldl_nil]
    set prev := List.foldl (commitLine cfg) ({ } : Session) ls' with hprev
    have hhist : ({ prev with line := a } : Session).history = prev.history := rfl
    have key := addHistoryS_fresh_take cfg { prev with line := a }
      (hsp a (List.mem_append_right _ (List.mem_singleton_self a)))
      hhs
      (by
        rw [hhist, ihh]
        intro hm
        exact hnotmem (by simpa using List.take_subset _ _ hm))
      (by rw [hhist, ihh]; simpa using List.length_take_le _ _)
    unfold commitLine
    rw [key]
    dsimp only
    rw [hhist, ihh, List.reverse_append]
    simp only [List.reverse_singleton, List.singleton_append]
    cases hs : cfg.historySize with
    | zero => omega
    | succ n =>
      rw [List.take_succ_cons, List.take_succ_cons, List.take_take,
        Nat.min_eq_left (Nat.le_succ n)]

/-- C2 (amended): committing any list of distinct lines, each containing a
non-whitespace character (whitespace-only lines are not added to
history), leaves the ring holding exactly the most recent `historySize`
of them, most-recent-first; and one `addHistory` step never grows the
ring beyond `historySize` (the oldest entry is evicted on overflow). -/
theorem c2_history_capacity (cfg : Config) (ls : List JStr) (hnd : ls.Nodup)
    (hsp : ∀ l ∈ ls, ¬ l.all isSpaceCu) (hhs : 0 < cfg.historySize) :
    (commitAll cfg { } ls).history = ls.reverse.take cfg.historySize ∧
    ∀ s : Session, s.history.length ≤ cfg.historySize →
      (addHistoryS cfg s).1.history.length ≤ cfg.historySize :=
  ⟨commitAll_history_take cfg ls hnd hsp hhs,
   fun s h => addHistoryS_capacity cfg s h⟩

/-- The 30 lines of the C2 counterexample: all distinct and non-empty,
but the first one is the single space `" "`. -/
def c2Lines : List JStr := [strCodes " "] ++ (List.range 29).map (fun i => [100 + i])

set_option maxRecDepth 4000 in
/-- Counterexample to C2 as stated: committing `kHistorySize` distinct
non-empty lines whose first is the whitespace-only `" "` leaves only 29
entries in the ring, not the most recent `kHistorySize` lines —
`addHistory` rejects whitespace-only lines, so "non-empty" is not
enough. -/
theorem c2_counterexample :
    c2Lines.length = kHistorySize ∧ c2Lines.Nodup ∧ (∀ l ∈ c2Lines, l ≠ []) ∧
    (commitAll { } { } c2Lines).history.length = 29 ∧
    (commitAll { } { } c2Lines).history ≠ c2Lines.reverse.take kHistorySize := by
  decide

/-- Witness for C2 at two concrete committed lines and the default
capacity. -/
theorem c2_witness :
    (commitAll { } { } [[97], [98]]).history =
      ([([97] : JStr), [98]]).reverse.take ({ } : Config).historySize :=
  (c2_history_capacity { } [[97], [98]] (by decide) (by decide) (by decide)).1

/-! ## C8: display-position computation -/

theorem stripVTAux_no_escape (s : JStr) (h : ∀ c ∈ s, c ≠ 0x1B) :
    stripVTAux false s = s := by
  induction s with
  | nil => rfl
  | cons c r ih =>
    unfold stripVTAux
    rw [if_neg (h c (List.mem_cons_self c r)),
      ih (fun x hx => h x (List.mem_cons_of_mem c hx))]

theorem getStringWidthCode_ascii (c : Nat) (h1 : 0x20 ≤ c) (h2 : c ≤ 0x7E) :
    getStringWidthCode c = 1 := by
  unfold getStringWidthCode isZeroWidthCodePoint isFullWidthCodePoint
  rw [decide_eq_false (by omega), decide_eq_false (by omega)]
  rfl

theorem displayLoop_ascii (colW : Nat) :
    ∀ (s : JStr), (∀ c ∈ s, 0x20 ≤ c ∧ c ≤ 0x7E) →
      ∀ offset row, displayLoop colW s offset row = (offset + s.length, row)
  | [], _, offset, row => by simp [displayLoop]
  | [c], h, offset, row => by
    have hc := h c (List.mem_singleton_self c)
    unfold displayLoop
    rw [if_neg (by omega)]
    unfold stepOffset
    rw [getStringWidthCode_ascii c hc.1 hc.2, if_pos (by omega)]
    simp
  | c :: c2 :: r2, h, offset, row => by
    have hc := h c (List.mem_cons_self _ _)
    have hc2 := h c2 (List.mem_cons_of_mem _ (List.mem_cons_self _ _))
    have hr2 : ∀ x ∈ r2, 0x20 ≤ x ∧ x ≤ 0x7E :=
      fun x hx => h x (List.mem_cons_of_mem _ (List.mem_cons_of_mem _ hx))
    have hhi : isHighSurrogate c = false := by
      unfold isHighSurrogate; exact decide_eq_false (by omega)
    unfold displayLoop
    rw [if_neg (by simp [hhi]), if_neg (by omega)]
    unfold stepOffset
    rw [getStringWidthCode_ascii c hc.1 hc.2, if_pos (by omega)]
    rw [displayLoop_ascii colW (c2 :: r2) (fun x hx => h x (List.mem_cons_of_mem _ hx))]
    simp only [List.length_cons]
    congr 1
    omega

theorem getDisplayPos_ascii (colW : Nat) (s : JStr) (hcol : 0 < colW)
    (hascii : ∀ c ∈ s, 0x20 ≤ c ∧ c ≤ 0x7E) :
    (getDisplayPos colW s).rows * colW + (getDisplayPos colW s).cols = s.length := by
  unfold getDisplayPos stripVT
  rw [stripVTAux_no_escape s (fun c hc => by have := hascii c hc; omega)]
  dsimp only
  rw [displayLoop_ascii colW s hascii 0 0]
  dsimp only
  simp only [Nat.zero_add]
  set len := s.length with hlen
  have h1 : len % colW + colW * (len / colW) = len := Nat.mod_add_div len colW
  have h2 : len - len % colW = colW * (len / colW) := by omega
  rw [h2, Nat.mul_div_cancel_left _ hcol]
  exact Nat.div_add_mod' len colW

/-- C8: (1) a string of ASCII printable characters occupies exactly its
length in display cells: `rows * width + cols = n` for every terminal
width; (2) with terminal width 20, prompt `"> "` and line `"hello world"`
with the cursor at its end, the computed cursor position is `cols = 13,
rows = 0`; (3) with terminal width 10, a width-2 code point that would
start at the last column (column 9) is pushed to the next row, raising
the computed row count from 0 to 1. -/
theorem c8_display_positions :
    (∀ (colW : Nat) (s : JStr), 0 < colW → (∀ c ∈ s, 0x20 ≤ c ∧ c ≤ 0x7E) →
      (getDisplayPos colW s).rows * colW + (getDisplayPos colW s).cols = s.length) ∧
    getCursorPos 20 (strCodes "> ") (strCodes "hello world")
      (((strCodes "hello world").length : Int)) = { cols := 13, rows := 0 } ∧
    (getDisplayPos 10 (strCodes "abcdefghi")).rows = 0 ∧
    (getDisplayPos 10 (strCodes "abcdefghi" ++ [0x4E00])).rows = 1 := by
  refine ⟨getDisplayPos_ascii, by decide, by decide, by decide⟩

/-- Witness for C8's universally quantified part at width 5 and the
string `"abc"`. -/
theorem c8_witness :
    (getDisplayPos 5 (strCodes "abc")).rows * 5 + (getDisplayPos 5 (strCodes "abc")).cols =
      (strCodes "abc").length :=
  c8_display_positions.1 5 (strCodes "abc") (by decide) (by decide)

/-! ## C6: word deletion patterns -/

/-- The run C6 claims for both directions:
`{whitespace}* ({non-word-non-space}+ | {word-chars}+)` — a maximal
whitespace run, then a maximal run of whichever of the two classes the
next unit belongs to (no match, hence no removal, when nothing follows
the whitespace run).  Used to exhibit the counterexample. -/
def claimedRunLen (t : JStr) : Nat :=
  let w := (t.takeWhile isSpaceCu).length
  let rest := t.drop w
  match rest.head? with
  | none => 0
  | some c =>
    if isWordCu c then w + (rest.takeWhile isWordCu).length
    else w + (rest.takeWhile (fun x => !isWordCu x && !isSpaceCu x)).length

/-- Counterexample to C6 as stated, at line `"a b"` with the cursor at 0:
the claimed pattern scans no whitespace and then the word run `"a"`, so
it removes exactly one unit leaving `" b"`; `deleteWordRight`'s actual
regex `/^(?:\s+|\W+|\w+)\s*/` also swallows the whitespace *after* the
word run and leaves `"b"`. -/
theorem c6_counterexample :
    applyOp ⟨strCodes "a b", 0⟩ .delWordR = some ⟨strCodes "b", 0⟩ ∧
    claimedRunLen (strCodes "a b") = 1 ∧
    (strCodes "a b").drop (claimedRunLen (strCodes "a b")) = strCodes " b" ∧
    strCodes "b" ≠ strCodes " b" := by decide

/-- The run `deleteWordLeft` actually removes, scanned leftward from the
cursor (on the reversed leading text): a maximal whitespace run, then —
when any unit follows it — a maximal run of word characters or of
non-word-non-space characters, by the class of the first such unit
(the pattern `{whitespace}* ({non-word-non-space}+ | {word-chars}+)?`
with the class group optional). -/
def amendedLeftRun (s : JStr) : Nat :=
  (s.takeWhile isSpaceCu).length +
    match (s.dropWhile isSpaceCu).head? with
    | none => 0
    | some x =>
      if isWordCu x then ((s.dropWhile isSpaceCu).takeWhile isWordCu).length
      else ((s.dropWhile isSpaceCu).takeWhile (fun y => !isWordCu y && !isSpaceCu y)).length

/-- The run `deleteWordRight` actually removes, scanned rightward from
the cursor (the pattern `({whitespace}+ | {non-word}+ | {word-chars}+)
{whitespace}*`, ordered alternation): a maximal whitespace run when the
first unit is whitespace; otherwise a maximal run of non-word units
(a class that itself includes whitespace) when the first unit is not a
word character; otherwise a maximal word run followed by a maximal
whitespace run. -/
def amendedRightRun (t : JStr) : Nat :=
  match t.head? with
  | none => 0
  | some x =>
    if isSpaceCu x then (t.takeWhile isSpaceCu).length
    else if !isWordCu x then (t.takeWhile (fun y => !isWordCu y)).length
    else (t.takeWhile isWordCu).length +
      ((t.drop (t.takeWhile isWordCu).length).takeWhile isSpaceCu).length

theorem wordLeftMatchLen_eq_amended (s : JStr) : wordLeftMatchLen s = amendedLeftRun s := by
  unfold wordLeftMatchLen amendedLeftRun
  cases h : s.dropWhile isSpaceCu with
  | nil => rfl
  | cons x t => rfl

theorem wordRightMatchLen_eq_amended (t : JStr) (h : t ≠ []) :
    wordRightMatchLen t = some (amendedRightRun t) := by
  cases t with
  | nil => exact absurd rfl h
  | cons x r =>
    unfold wordRightMatchLen amendedRightRun
    dsimp only [List.head?]
    split_ifs <;> rfl

/-- C6 (amended): `deleteWordLeft` removes exactly the maximal run
matching `{whitespace}* ({non-word-non-space}+ | {word-chars}+)?` scanned
leftward from the cursor, while `deleteWordRight` removes exactly the
maximal run matching `({whitespace}+ | {non-word}+ | {word-chars}+)
{whitespace}*` scanned rightward from the cursor — the two directions use
different patterns: rightward, leading whitespace is never combined with
a following word run, a non-word run swallows embedded whitespace, and a
word run also takes the whitespace after it. -/
theorem c6_word_deletion (l : JStr) (c : Nat) (hc : c ≤ l.length) :
    applyOp ⟨l, (c : Int)⟩ .delWordL =
      some (if 0 < c then
        ⟨l.take (c - amendedLeftRun (l.take c).reverse) ++ l.drop c,
         ((c - amendedLeftRun (l.take c).reverse : Nat) : Int)⟩
      else ⟨l, (c : Int)⟩) ∧
    applyOp ⟨l, (c : Int)⟩ .delWordR =
      some (if c < l.length then
        ⟨l.take c ++ l.drop (c + amendedRightRun (l.drop c)), (c : Int)⟩
      else ⟨l, (c : Int)⟩) := by
  constructor
  · show some (deleteWordLeftLC ⟨l, (c : Int)⟩) = _
    unfold deleteWordLeftLC
    dsimp only
    by_cases hc0 : 0 < c
    · rw [if_pos (by exact_mod_cast hc0), if_pos hc0]
      rw [jsSlice_zero_ofNat, wordLeftMatchLen_eq_amended]
      have hlead : (l.take c).length = c := by
        rw [List.length_take]; omega
      have hm : amendedLeftRun (l.take c).reverse ≤ c := by
        have h1 := wordLeftMatchLen_le (l.take c).reverse
        rw [wordLeftMatchLen_eq_amended] at h1
        simpa [hlead] using h1
      set m := amendedLeftRun (l.take c).reverse with hmdef
      have hcast : ((l.take c).length : Int) - (m : Int) = ((c - m : Nat) : Int) := by
        rw [hlead]; omega
      rw [hcast, jsSlice_zero_ofNat, jsSlice_ofNat_len]
      rw [List.take_take, Nat.min_eq_left (by omega)]
      have hl2 : ((l.take c).take (c - m)).length = c - m := by
        rw [List.take_take, Nat.min_eq_left (by omega), List.length_take]
        omega
      rw [List.take_take, Nat.min_eq_left (by omega)] at hl2
      rw [hl2]
    · rw [if_neg (by exact_mod_cast hc0), if_neg hc0]
  · show deleteWordRightLC ⟨l, (c : Int)⟩ = _
    unfold deleteWordRightLC
    dsimp only
    by_cases hlt : c < l.length
    · rw [if_pos (by exact_mod_cast hlt), if_pos hlt]
      rw [jsSliceFrom_ofNat]
      rw [wordRightMatchLen_eq_amended (l.drop c)
        (by
          intro he
          have := congrArg List.length he
          simp only [List.length_drop, List.length_nil] at this
          omega)]
      dsimp only
      rw [jsSlice_zero_ofNat, jsSliceFrom_ofNat, List.drop_drop]
    · rw [if_neg (by exact_mod_cast hlt), if_neg hlt]

/-- Witness for C6 at line `"x  yz"` with the cursor after `"x "`. -/
theorem c6_witness :
    (2 ≤ (strCodes "x  yz").length) ∧
    applyOp ⟨strCodes "x  yz", (2 : Int)⟩ .delWordL =
      some (if 0 < 2 then
        ⟨(strCodes "x  yz").take (2 - amendedLeftRun ((strCodes "x  yz").take 2).reverse) ++
          (strCodes "x  yz").drop 2,
         ((2 - amendedLeftRun ((strCodes "x  yz").take 2).reverse : Nat) : Int)⟩
      else ⟨strCodes "x  yz", (2 : Int)⟩) ∧
    applyOp ⟨strCodes "x  yz", (2 : Int)⟩ .delWordR =
      some (if 2 < (strCodes "x  yz").length then
        ⟨(strCodes "x  yz").take 2 ++
          (strCodes "x  yz").drop (2 + amendedRightRun ((strCodes "x  yz").drop 2)),
         (2 : Int)⟩
      else ⟨strCodes "x  yz", (2 : Int)⟩) :=
  ⟨by decide, c6_word_deletion (strCodes "x  yz") 2 (by decide)⟩

/-! ## C7: common-prefix auto-insertion

The lexicographic order underlying `Array.prototype.sort`, and the fact
that `commonPrefix` (longest common prefix of the sorted copy's first and
last entries) computes the longest common prefix of the whole list. -/

theorem lexLe_refl : ∀ a : JStr, lexLe a a = true
  | [] => rfl
  | a :: as => by simp [lexLe, lexLe_refl as]

theorem lexLe_nil_right : ∀ (a : Nat) (as x : JStr), lexLe (a :: as) x = true → x ≠ [] := by
  intro a as x h he
  subst he
  simp [lexLe] at h

theorem lexLe_total : ∀ a b : JStr, lexLe a b = true ∨ lexLe b a = true
  | [], _ => Or.inl rfl
  | _ :: _, [] => Or.inr rfl
  | a :: as, b :: bs => by
    rcases Nat.lt_trichotomy a b with h | h | h
    · left; simp [lexLe, h]
    · subst h
      rcases lexLe_total as bs with h' | h'
      · left; simp [lexLe, h']
      · right; simp [lexLe, h']
    · right; simp [lexLe, h]

theorem lexLe_trans : ∀ a b c : JStr, lexLe a b = true → lexLe b c = true →
    lexLe a c = true
  | [], _, _, _, _ => rfl
  | a :: as, [], c, h1, _ => absurd h1 (by simp [lexLe])
  | a :: as, b :: bs, [], _, h2 => absurd h2 (by simp [lexLe])
  | a :: as, b :: bs, c :: cs, h1, h2 => by
    by_cases hab : a < b
    · by_cases hbc : b < c
      · simp [lexLe, show a < c by omega]
      · by_cases hcb : c < b
        · exact absurd h2 (by simp [lexLe, hcb, hbc])
        · have hbec : b = c := by omega
          subst hbec
          simp [lexLe, hab]
    · by_cases hba : b < a
      · exact absurd h1 (by simp [lexLe, hba, hab])
      · have haeb : a = b := by omega
        subst haeb
        by_cases hac : a < c
        · simp [lexLe, hac]
        · by_cases hca : c < a
          · exact absurd h2 (by simp [lexLe, hca, hac])
          · have haec : a = c := by omega
            subst haec
            have h1' : lexLe as bs = true := by simpa [lexLe, hab, hba] using h1
            have h2' : lexLe bs cs = true := by simpa [lexLe, hac, hca] using h2
            simp [lexLe, lexLe_trans as bs cs h1' h2']

theorem mem_jsInsertSorted (x y : JStr) : ∀ l : List JStr,
    x ∈ jsInsertSorted y l ↔ x = y ∨ x ∈ l
  | [] => by simp [jsInsertSorted]
  | z :: r => by
    unfold jsInsertSorted
    split
    · simp [List.mem_cons]
    · simp only [List.mem_cons, mem_jsInsertSorted x y r]
      tauto

theorem mem_jsSort (x : JStr) : ∀ l : List JStr, x ∈ jsSort l ↔ x ∈ l
  | [] => Iff.rfl
  | z :: r => by
    unfold jsSort
    rw [mem_jsInsertSorted x z (jsSort r), mem_jsSort x r]
    simp [List.mem_cons]

theorem pairwise_jsInsertSorted (y : JStr) : ∀ l : List JStr,
    l.Pairwise (fun a b => lexLe a b = true) →
    (jsInsertSorted y l).Pairwise (fun a b => lexLe a b = true)
  | [], _ => by simp [jsInsertSorted]
  | z :: r, hp => by
    unfold jsInsertSorted
    obtain ⟨hz, hr⟩ := List.pairwise_cons.mp hp
    split
    · next hyz =>
      refine List.pairwise_cons.mpr ⟨?_, hp⟩
      intro b hb
      rcases List.mem_cons.mp hb with rfl | hbr
      · exact hyz
      · exact lexLe_trans y z b hyz (hz b hbr)
    · next hyz =>
      have hzy : lexLe z y = true := by
        rcases lexLe_total y z with h | h
        · exact absurd h hyz
        · exact h
      refine List.pairwise_cons.mpr ⟨?_, pairwise_jsInsertSorted y r hr⟩
      intro b hb
      rcases (mem_jsInsertSorted b y r).mp hb with rfl | hbr
      · exact hzy
      · exact hz b hbr

theorem pairwise_jsSort : ∀ l : List JStr,
    (jsSort l).Pairwise (fun a b => lexLe a b = true)
  | [] => List.Pairwise.nil
  | z :: r => pairwise_jsInsertSorted z (jsSort r) (pairwise_jsSort r)

theorem getLastD_mem : ∀ (l : List JStr), l ≠ [] → l.getLastD [] ∈ l
  | [], h => absurd rfl h
  | [a], _ => by simp
  | a :: b :: t, _ => by
    rw [List.getLastD_cons]
    exact List.mem_cons_of_mem a (getLastD_mem (b :: t) (by simp))

theorem pairwise_headD_le (l : List JStr)
    (hp : l.Pairwise (fun a b => lexLe a b = true)) :
    ∀ c ∈ l, lexLe (l.headD []) c = true := by
  cases l with
  | nil => intro c hc; exact absurd hc (by simp)
  | cons a t =>
    intro c hc
    rcases List.mem_cons.mp hc with rfl | hct
    · exact lexLe_refl c
    · exact (List.pairwise_cons.mp hp).1 c hct

theorem pairwise_le_getLastD : ∀ (l : List JStr),
    l.Pairwise (fun a b => lexLe a b = true) →
    ∀ c ∈ l, lexLe c (l.getLastD []) = true
  | [], _, c, hc => absurd hc (by simp)
  | [a], _, c, hc => by
    rcases List.mem_singleton.mp hc with rfl
    simpa using lexLe_refl c
  | a :: b :: t, hp, c, hc => by
    rw [List.getLastD_cons]
    rcases List.mem_cons.mp hc with rfl | hct
    · exact lexLe_trans c b ((b :: t).getLastD [])
        ((List.pairwise_cons.mp hp).1 b (List.mem_cons_self b t))
        (pairwise_le_getLastD (b :: t) (List.pairwise_cons.mp hp).2 b
          (List.mem_cons_self b t))
    · exact pairwise_le_getLastD (b :: t) (List.pairwise_cons.mp hp).2 c hct

theorem lcp2_between : ∀ (a b x : JStr), lexLe a x = true → lexLe x b = true →
    (lcp2 a b).isPrefixOf x = true
  | [], _, _, _, _ => List.isPrefixOf_nil_left
  | a :: as, [], x, h1, h2 => by
    cases x with
    | nil => exact absurd h1 (by simp [lexLe])
    | cons y ys => exact absurd h2 (by simp [lexLe])
  | a :: as, b :: bs, x, h1, h2 => by
    unfold lcp2
    by_cases hab : a = b
    · subst hab
      rw [if_pos rfl]
      cases x with
      | nil => exact absurd h1 (by simp [lexLe])
      | cons y ys =>
        by_cases hay : a < y
        · exact absurd h2 (by simp [lexLe, hay, show ¬ y < a by omega])
        · by_cases hya : y < a
          · exact absurd h1 (by simp [lexLe, hya, hay])
          · have hye : y = a := by omega
            subst hye
            have h1' : lexLe as ys = true := by simpa [lexLe, hay, hya] using h1
            have h2' : lexLe ys bs = true := by simpa [lexLe, hay, hya] using h2
            simp [List.isPrefixOf, lcp2_between as bs ys h1' h2']
    · rw [if_neg hab]
      exact List.isPrefixOf_nil_left

theorem isPrefixOf_lcp2 : ∀ (q a b : JStr), q.isPrefixOf a = true →
    q.isPrefixOf b = true → q.isPrefixOf (lcp2 a b) = true
  | [], _, _, _, _ => List.isPrefixOf_nil_left
  | q :: qs, [], b, h1, _ => absurd h1 (by simp [List.isPrefixOf])
  | q :: qs, a :: as, [], _, h2 => absurd h2 (by simp [List.isPrefixOf])
  | q :: qs, a :: as, b :: bs, h1, h2 => by
    simp only [List.isPrefixOf, Bool.and_eq_true, beq_iff_eq] at h1 h2
    obtain ⟨hqa, h1'⟩ := h1
    obtain ⟨hqb, h2'⟩ := h2
    unfold lcp2
    rw [if_pos (by rw [← hqa, ← hqb])]
    simp [List.isPrefixOf, hqa, isPrefixOf_lcp2 qs as bs h1' h2']

theorem isPrefixOf_length_le : ∀ (q l : JStr), q.isPrefixOf l = true →
    q.length ≤ l.length
  | [], _, _ => by simp
  | q :: qs, [], h => absurd h (by simp [List.isPrefixOf])
  | q :: qs, a :: as, h => by
    simp only [List.isPrefixOf, Bool.and_eq_true] at h
    simpa using Nat.succ_le_succ (isPrefixOf_length_le qs as h.2)

theorem isPrefixOf_refl : ∀ l : JStr, l.isPrefixOf l = true
  | [] => rfl
  | a :: as => by simp [List.isPrefixOf, isPrefixOf_refl as]

/-- `commonPrefix` computes the longest common prefix: it is a common
prefix of every entry, and every common prefix of all entries is a prefix
of it. -/
theorem commonPrefix_isLCP (cs : List JStr) (hne : cs ≠ []) :
    (∀ c ∈ cs, (commonPrefix cs).isPrefixOf c = true) ∧
    (∀ q : JStr, (∀ c ∈ cs, q.isPrefixOf c = true) →
      q.isPrefixOf (commonPrefix cs) = true) := by
  match cs with
  | [] => exact absurd rfl hne
  | [s] =>
    refine ⟨?_, ?_⟩
    · intro c hc
      rcases List.mem_singleton.mp hc with rfl
      exact isPrefixOf_refl c
    · intro q hq
      exact hq s (List.mem_singleton_self s)
  | s1 :: s2 :: t =>
    set cs' := s1 :: s2 :: t with hcs
    have hsorted_ne : jsSort cs' ≠ [] := by
      intro he
      have : s1 ∈ jsSort cs' := (mem_jsSort s1 cs').mpr (by simp [hcs])
      rw [he] at this
      exact absurd this (by simp)
    have hpw := pairwise_jsSort cs'
    have hmn_mem : (jsSort cs').headD [] ∈ cs' := by
      rw [← mem_jsSort]
      cases hs : jsSort cs' with
      | nil => exact absurd hs hsorted_ne
      | cons m r => simp
    have hmx_mem : (jsSort cs').getLastD [] ∈ cs' := by
      rw [← mem_jsSort]
      exact getLastD_mem _ hsorted_ne
    have hmn_le : ∀ c ∈ cs', lexLe ((jsSort cs').headD []) c = true := by
      intro c hc
      exact pairwise_headD_le _ hpw c ((mem_jsSort c cs').mpr hc)
    have hle_mx : ∀ c ∈ cs', lexLe c ((jsSort cs').getLastD []) = true := by
      intro c hc
      exact pairwise_le_getLastD _ hpw c ((mem_jsSort c cs').mpr hc)
    have hcp : commonPrefix cs' =
        lcp2 ((jsSort cs').headD []) ((jsSort cs').getLastD []) := rfl
    refine ⟨?_, ?_⟩
    · intro c hc
      rw [hcp]
      exact lcp2_between _ _ c (hmn_le c hc) (hle_mx c hc)
    · intro q hq
      rw [hcp]
      exact isPrefixOf_lcp2 q _ _ (hq _ hmn_mem) (hq _ hmx_mem)

theorem clampCursor_of_inRange (len : Nat) (c : Int) (h0 : 0 ≤ c) (h1 : c ≤ (len : Int)) :
    clampCursor len c = c := by
  unfold clampCursor
  rw [if_neg (by omega), if_neg (by omega)]

theorem moveCursorS_fin_cursor (cfg : Config) (s : Session) (dx : Int) :
    (moveCursorS cfg s (.fin dx)).cursor = clampCursor s.line.length (s.cursor + dx) := by
  unfold moveCursorS moveCursorLC Session.withLC Session.lc
  dsimp only
  split
  · rfl
  · rw [refreshLineS_cursor]

theorem insertStringS_line_cursor (cfg : Config) (s : Session) (x : JStr)
    (h0 : 0 ≤ s.cursor) (h1 : s.cursor ≤ (s.line.length : Int)) :
    (insertStringS cfg s x).line =
      s.line.take s.cursor.toNat ++ x ++ s.line.drop s.cursor.toNat ∧
    (insertStringS cfg s x).cursor = s.cursor + (x.length : Int) := by
  have hc : (s.cursor : Int) = ((s.cursor.toNat : Nat) : Int) := by omega
  unfold insertStringS insertStringLC Session.withLC Session.lc
  dsimp only
  by_cases hlt : s.cursor < (s.line.length : Int)
  · rw [if_pos hlt, if_pos hlt]
    refine ⟨?_, by simp⟩
    rw [refreshLineS_line]
    dsimp only
    rw [hc, jsSlice_zero_ofNat, jsSlice_ofNat_len]
    simp only [Int.toNat_ofNat]
  · rw [if_neg hlt, if_neg hlt]
    have hce : s.cursor.toNat = s.line.length := by omega
    have hline : s.line ++ x =
        s.line.take s.cursor.toNat ++ x ++ s.line.drop s.cursor.toNat := by
      rw [hce, List.take_of_length_le le_rfl, List.drop_of_length_le le_rfl,
        List.append_nil]
    split
    · rw [refreshLineS_line, refreshLineS_cursor]
      exact ⟨hline, rfl⟩
    · constructor
      · rw [moveCursorS_line]
        exact hline
      · rw [moveCursorS_fin_cursor]
        simp only [writeOut_cursor, writeOut_line]
        rw [Int.add_zero]
        rw [clampCursor_of_inRange _ _ (by omega) (by simp; omega)]

/-- C7: when all candidates share a common prefix strictly longer than
the already-typed `completeOn` prefix, `tabComplete` inserts exactly the
extra shared portion — the longest common prefix `L` of the candidates
(characterised below as such) minus its first `completeOn.length` units —
into the line at the cursor, advancing the cursor by the inserted
length. -/
theorem c7_common_prefix_insertion (cfg : Config) (s : Session) (cs : List JStr)
    (co p : JStr) (lastTab : Bool) (hne : cs ≠ [])
    (hp : ∀ c ∈ cs, p.isPrefixOf c = true) (hlen : co.length < p.length)
    (hc0 : 0 ≤ s.cursor) (hc1 : s.cursor ≤ (s.line.length : Int)) :
    ∃ L : JStr,
      (∀ c ∈ cs, L.isPrefixOf c = true) ∧
      (∀ q : JStr, (∀ c ∈ cs, q.isPrefixOf c = true) → q.isPrefixOf L = true) ∧
      co.length < L.length ∧
      (tabCompleteS cfg s lastTab (.ok cs co)).line =
        s.line.take s.cursor.toNat ++ L.drop co.length ++ s.line.drop s.cursor.toNat ∧
      (tabCompleteS cfg s lastTab (.ok cs co)).cursor =
        s.cursor + (((L.drop co.length).length : Nat) : Int) := by
  have hpne : p ≠ [] := by
    intro he
    rw [he] at hlen
    simp at hlen
  have hcsne : ∀ c ∈ cs, c ≠ [] := by
    intro c hc he
    have hpc := hp c hc
    rw [he] at hpc
    cases p with
    | nil => exact hpne rfl
    | cons y ys => simp at hpc
  have hfilter : cs.filter (fun e => e ≠ []) = cs := by
    rw [List.filter_eq_self]
    intro a ha
    simpa using hcsne a ha
  obtain ⟨hLpre, hLmax⟩ := commonPrefix_isLCP cs hne
  have hplen : p.length ≤ (commonPrefix cs).length :=
    isPrefixOf_length_le p _ (hLmax p hp)
  refine ⟨commonPrefix cs, hLpre, hLmax, by omega, ?_⟩
  unfold tabCompleteS
  dsimp only
  rw [resumeS_pauseS]
  rw [if_pos (by simpa using hne)]
  rw [hfilter]
  rw [if_pos (by omega)]
  have hXline : (if lastTab = true then
      displayCompletionsS cfg { s with paused := false } cs
      else ({ s with paused := false } : Session)).line = s.line := by
    split
    · exact displayCompletionsS_preserve (fun s => s.line) (by simp) cfg _ cs
    · rfl
  have hXcursor : (if lastTab = true then
      displayCompletionsS cfg { s with paused := false } cs
      else ({ s with paused := false } : Session)).cursor = s.cursor := by
    split
    · exact displayCompletionsS_preserve (fun s => s.cursor) (by simp) cfg _ cs
    · rfl
  have hins := insertStringS_line_cursor cfg
    (if lastTab = true then displayCompletionsS cfg { s with paused := false } cs
      else ({ s with paused := false } : Session))
    ((commonPrefix cs).drop co.length)
    (by rw [hXcursor]; exact hc0)
    (by rw [hXcursor, hXline]; exact hc1)
  rw [refreshLineS_line, refreshLineS_cursor]
  rw [hins.1, hins.2, hXline, hXcursor]
  exact ⟨rfl, rfl⟩

/-- Witness for C7: prefix `"f"` typed (line `"f"`, cursor 1), candidates
`["foo", "foobar", "foobaz"]`; the longest common prefix is `"foo"` and
the inserted text is the extra `"oo"`. -/
theorem c7_witness :
    ∃ L : JStr,
      (∀ c ∈ [strCodes "foo", strCodes "foobar", strCodes "foobaz"],
        L.isPrefixOf c = true) ∧
      (∀ q : JStr, (∀ c ∈ [strCodes "foo", strCodes "foobar", strCodes "foobaz"],
        q.isPrefixOf c = true) → q.isPrefixOf L = true) ∧
      (strCodes "f").length < L.length ∧
      (tabCompleteS { } { line := strCodes "f", cursor := 1 } false
          (.ok [strCodes "foo", strCodes "foobar", strCodes "foobaz"]
            (strCodes "f"))).line =
        (strCodes "f").take (1 : Int).toNat ++ L.drop (strCodes "f").length ++
          (strCodes "f").drop (1 : Int).toNat ∧
      (tabCompleteS { } { line := strCodes "f", cursor := 1 } false
          (.ok [strCodes "foo", strCodes "foobar", strCodes "foobaz"]
            (strCodes "f"))).cursor =
        1 + (((L.drop (strCodes "f").length).length : Nat) : Int) :=
  c7_common_prefix_insertion { } { line := strCodes "f", cursor := 1 }
    [strCodes "foo", strCodes "foobar", strCodes "foobaz"]
    (strCodes "f") (strCodes "fo") false (by decide) (by decide) (by decide)
    (by decide) (by decide)

/-! ## C1: the cursor range invariant -/

theorem charLengthLeft_bounds (s : JStr) (i : Int) (h : 0 < i) :
    1 ≤ charLengthLeft s i ∧ charLengthLeft s i ≤ 2 := by
  unfold charLengthLeft
  rw [if_neg (by omega)]
  split <;> omega

theorem clampCursor_bounds (len : Nat) (c : Int) :
    0 ≤ clampCursor len c ∧ clampCursor len c ≤ (len : Int) := by
  unfold clampCursor
  split_ifs <;> omega

theorem length_jsSlice_zero (s : JStr) (b : Nat) :
    (jsSlice s 0 (b : Int)).length = min b s.length := by
  rw [jsSlice_zero_ofNat, List.length_take]

theorem length_jsSlice_to_len (s : JStr) (a : Nat) :
    (jsSlice s (a : Int) (s.length : Int)).length = s.length - a := by
  rw [jsSlice_ofNat_len, List.length_drop]

/-- One Line Buffer operation keeps the cursor in `[-1, length]`; `none`
(a thrown regex dereference) never yields a state at all. -/
theorem applyOp_cursor_range (st st' : LineState) (op : LineOp)
    (hlo : -1 ≤ st.cursor) (hhi : st.cursor ≤ (st.line.length : Int))
    (h : applyOp st op = some st') :
    -1 ≤ st'.cursor ∧ st'.cursor ≤ (st'.line.length : Int) := by
  obtain ⟨l, c⟩ := st
  cases op with
  | insert shim =>
    simp only [applyOp, Option.some.injEq] at h
    subst h
    unfold insertStringLC
    dsimp only at *
    split
    · next hlt =>
      by_cases hc0 : 0 ≤ c
      · have hc : c = ((c.toNat : Nat) : Int) := by omega
        rw [hc, jsSlice_zero_ofNat, jsSlice_ofNat_len]
        simp only [List.length_append, List.length_take, List.length_drop]
        constructor <;> [omega; (push_cast; omega)]
      · have hc : c = -1 := by omega
        rw [hc, jsSlice_zero_neg_one, jsSlice_neg_one_len]
        simp only [List.length_append, List.length_take, List.length_drop]
        constructor <;> [omega; (push_cast; omega)]
    · simp only [List.length_append]
      constructor <;> [omega; (push_cast; omega)]
  | delL =>
    simp only [applyOp, Option.some.injEq] at h
    subst h
    unfold deleteLeftLC
    dsimp only at *
    split
    · next hg =>
      obtain ⟨hg1, hg2⟩ := hg
      have hk := charLengthLeft_bounds l c hg1
      dsimp only
      by_cases hck : 0 ≤ c - (charLengthLeft l c : Int)
      · have hc2 : c - (charLengthLeft l c : Int) =
            (((c - (charLengthLeft l c : Int)).toNat : Nat) : Int) := by omega
        rw [hc2, jsSlice_zero_ofNat]
        have hc3 : c = ((c.toNat : Nat) : Int) := by omega
        rw [hc3, jsSlice_ofNat_len]
        simp only [List.length_append, List.length_take, List.length_drop]
        constructor <;> (push_cast; omega)
      · have hc2 : c - (charLengthLeft l c : Int) = -1 := by omega
        rw [hc2, jsSlice_zero_neg_one]
        simp only [List.length_append, List.length_take]
        constructor <;> (push_cast; try omega)
    · exact ⟨hlo, hhi⟩
  | delR =>
    simp only [applyOp, Option.some.injEq] at h
    subst h
    unfold deleteRightLC
    dsimp only at *
    split
    · next hg =>
      dsimp only
      by_cases hc0 : 0 ≤ c
      · have hc : c = ((c.toNat : Nat) : Int) := by omega
        rw [hc, jsSlice_zero_ofNat]
        simp only [List.length_append, List.length_take]
        constructor <;> (push_cast; omega)
      · refine ⟨hlo, ?_⟩
        have : (0 : Int) ≤ ((jsSlice l 0 c ++
            jsSlice l (c + (charLengthAt l c : Int)) (l.length : Int)).length : Int) :=
          Int.natCast_nonneg _
        omega
    · exact ⟨hlo, hhi⟩
  | delWordL =>
    simp only [applyOp, Option.some.injEq] at h
    subst h
    unfold deleteWordLeftLC
    dsimp only at *
    split
    · dsimp only
      simp only [List.length_append]
      constructor
      · exact le_trans (by omega) (Int.natCast_nonneg _)
      · push_cast
        omega
    · exact ⟨hlo, hhi⟩
  | delWordR =>
    simp only [applyOp] at h
    unfold deleteWordRightLC at h
    dsimp only at h
    split at h
    · next hg =>
      cases hm : wordRightMatchLen (jsSliceFrom l c) with
      | none => rw [hm] at h; exact absurd h (by simp)
      | some m =>
        rw [hm] at h
        simp only [Option.some.injEq] at h
        subst h
        dsimp only
        by_cases hc0 : 0 ≤ c
        · have hc : c = ((c.toNat : Nat) : Int) := by omega
          rw [hc, jsSlice_zero_ofNat]
          simp only [List.length_append, List.length_take]
          constructor <;> (push_cast; omega)
        · refine ⟨hlo, ?_⟩
          have : (0 : Int) ≤ ((jsSlice l 0 c ++
              jsSliceFrom (jsSliceFrom l c) (m : Int)).length : Int) :=
            Int.natCast_nonneg _
          omega
    · simp only [Option.some.injEq] at h
      subst h
      exact ⟨hlo, hhi⟩
  | delLineL =>
    simp only [applyOp, Option.some.injEq] at h
    subst h
    unfold deleteLineLeftLC
    dsimp only
    constructor <;> omega
  | delLineR =>
    simp only [applyOp, Option.some.injEq] at h
    subst h
    unfold deleteLineRightLC
    dsimp only at *
    by_cases hc0 : 0 ≤ c
    · have hc : c = ((c.toNat : Nat) : Int) := by omega
      rw [hc, jsSlice_zero_ofNat]
      simp only [List.length_take]
      constructor <;> (push_cast; omega)
    · refine ⟨hlo, ?_⟩
      have : (0 : Int) ≤ ((jsSlice l 0 c).length : Int) := Int.natCast_nonneg _
      omega
  | move d =>
    simp only [applyOp, Option.some.injEq] at h
    subst h
    unfold moveCursorLC
    cases d with
    | fin dx =>
      dsimp only
      have := clampCursor_bounds l.length (c + dx)
      exact ⟨by omega, this.2⟩
    | posInf =>
      dsimp only
      constructor <;> omega
    | negInf =>
      dsimp only
      constructor <;> omega

theorem applyOps_cursor_range (ops : List LineOp) (st st' : LineState)
    (hlo : -1 ≤ st.cursor) (hhi : st.cursor ≤ (st.line.length : Int))
    (h : applyOps st ops = some st') :
    -1 ≤ st'.cursor ∧ st'.cursor ≤ (st'.line.length : Int) := by
  induction ops generalizing st with
  | nil =>
    simp only [applyOps, List.foldlM_nil, Option.pure_def, Option.some.injEq] at h
    subst h
    exact ⟨hlo, hhi⟩
  | cons op rest ih =>
    simp only [applyOps, List.foldlM_cons] at h
    cases hstep : applyOp st op with
    | none => rw [hstep] at h; exact absurd h (by simp)
    | some st1 =>
      rw [hstep] at h
      have h1 := applyOp_cursor_range st st1 op hlo hhi hstep
      exact ih st1 h1.1 h1.2 h

/-- Counterexample to C1 as stated: from the in-range state
(line = one surrogate pair, cursor = 1, i.e. between the two halves of the
pair), `deleteLeft` computes `charLengthLeft = 2` and sets the cursor to
`1 - 2 = -1 < 0`, violating the claimed lower bound `0 ≤ cursor`; it also
leaves the line unchanged, since `slice(0, -1) ++ slice(1)` re-assembles
both units. -/
theorem c1_counterexample :
    (0 : Int) ≤ 1 ∧ (1 : Int) ≤ (([0xD800, 0xDC00] : JStr).length : Int) ∧
    applyOps ⟨[0xD800, 0xDC00], 1⟩ [LineOp.delL] =
      some ⟨[0xD800, 0xDC00], -1⟩ ∧
    ¬ ((0 : Int) ≤ (-1 : Int)) := by
  refine ⟨by decide, by decide, ?_, by decide⟩
  rfl

/-- **C1** (amended): for every sequence of line-buffer operations applied
from a line with in-range cursor `0 ≤ cursor ≤ len`, every state the
sequence reaches (in particular after each single operation, since every
prefix of the sequence is itself a sequence) satisfies
`-1 ≤ cursor ≤ len(text)`; the lower bound `-1` (not the claimed `0`) is
attained, by `deleteLeft` with the cursor between the halves of a leading
surrogate pair. -/
theorem c1_cursor_range (ops : List LineOp) (st st' : LineState)
    (hlo : 0 ≤ st.cursor) (hhi : st.cursor ≤ (st.line.length : Int))
    (h : applyOps st ops = some st') :
    -1 ≤ st'.cursor ∧ st'.cursor ≤ (st'.line.length : Int) :=
  applyOps_cursor_range ops st st' (by omega) hhi h

/-- Witness for C1 at a concrete input: inserting "ab", moving left once,
deleting a word right, from the empty line. -/
theorem c1_witness :
    (0 : Int) ≤ (⟨[], 0⟩ : LineState).cursor ∧
    (⟨[], 0⟩ : LineState).cursor ≤ (((⟨[], 0⟩ : LineState).line.length : Nat) : Int) ∧
    applyOps ⟨[], 0⟩
      [LineOp.insert (strCodes "ab"), LineOp.move (Delta.fin (-1)), LineOp.delWordR] =
      some ⟨[97], 1⟩ ∧
    (-1 ≤ ((⟨[97], 1⟩ : LineState) : LineState).cursor ∧
      ((⟨[97], 1⟩ : LineState)).cursor ≤ (((⟨[97], 1⟩ : LineState)).line.length : Int)) := by
  refine ⟨by decide, by decide, by rfl, ?_⟩
  exact c1_cursor_range
    [LineOp.insert (strCodes "ab"), LineOp.move (Delta.fin (-1)), LineOp.delWordR]
    ⟨[], 0⟩ ⟨[97], 1⟩ (by decide) (by decide) (by rfl)
